import Mathlib

/-!
Hazard pointers (`hazard-ptr.hpp`, `main.cpp`)

A shallow embedding of the hazard-pointer registry of namespace `Concurrent`
and of the demonstration run of `main.cpp`.

Modelling choices, all read off the source:

* `detail::HPCell` is `void*`: a natural number, `0` being `nullptr`.
* `std::function<void(HPCell)>` is `Option Nat`: `none` is the empty function
  object (what `Create()`'s default argument `{}` builds), `some k` is the
  callable number `k`.  Invoking the empty one throws `std::bad_function_call`.
* `HPStorage` (an `unordered_map` from thread id to `std::array<HPCell, Size>`)
  is an association list; only membership and lookup are used, so iteration
  order is immaterial.
* `RetireStorage` is `thread_local`: one vector per thread, a function of the
  thread id; the end of a thread destroys its vector (`Run.threadExit`).
* A `detail::HPCell*` handed out by `Create` is a `CellRef` (thread id, slot).
* The mutex of `HazardPtrManager` is not modelled: every operation below is one
  atomic step of a serialized run.
-/

namespace Concurrent

/-- Embeds `constexpr size_t MAX_THREADS_AMNT = 1;` -/
def MAX_THREADS_AMNT : Nat := 1

/-- Embeds `using HPCell = void*;` -/
abbrev HPCell := Nat

/-- The null pointer, the "unused" value of a cell. -/
def nullptr : HPCell := 0

/-- Embeds `std::__thread_id` -/
abbrev ThreadId := Nat

/-- Embeds `std::function<void(detail::HPCell)>`; `none` is the empty function object. -/
abbrev Callback := Option Nat

/-- Embeds `static constexpr std::size_t Size = 5;` -/
def Size : Nat := 5

/-- A `detail::HPCell*` pointing into `HPStorage`: slot `idx` of thread `tid`. -/
structure CellRef where
  tid : ThreadId
  idx : Nat
deriving DecidableEq, Repr

/-- Class `HazardPtr`: the cell pointer (`none` is `nullptr`) and the deleter. -/
structure HazardPtr where
  ThreadLocalCellAddr : Option CellRef
  Deleter : Callback
deriving DecidableEq, Repr

/-- The exceptions the code can throw. -/
inductive Exn where
  | runtime_error
  | bad_function_call
deriving DecidableEq, Repr

/-- One element of `RetireStorage`: `std::pair<HPCell, std::function<void(HPCell)>>`. -/
abbrev Record := HPCell × Callback

/-- One executed call `reclaim(reclaimCandidate)` of `ReclaimUnprotected`: the
thread whose `RetireStorage` is scanned, the position of the record in it, the
address passed and the callable invoked. -/
structure Call where
  tid : ThreadId
  idx : Nat
  addr : HPCell
  fn : Nat
deriving DecidableEq, Repr

/-- Embeds `MapHazardPtrsStorage` together with the `thread_local` retire vectors. -/
structure MapHazardPtrsStorage where
  HPStorage : List (ThreadId × List HPCell)
  RetireStorage : ThreadId → List Record

/-- What a `void` member function leaves behind: the state, the callbacks it
invoked in order, and the exception that left it, if any. -/
structure Effect where
  state : MapHazardPtrsStorage
  calls : List Call
  raised : Option Exn

/-- The storage `std::make_unique<T>()` builds: no thread registered, and every
thread's retire vector empty. -/
def MapHazardPtrsStorage.init : MapHazardPtrsStorage :=
  ⟨[], fun _ => []⟩

/-- Embeds `HPStorage.find(id)`: the cell array of a registered thread. -/
def cellsOf (hp : List (ThreadId × List HPCell)) (id : ThreadId) : Option (List HPCell) :=
  match hp with
  | [] => none
  | ts :: rest => if ts.1 = id then some ts.2 else cellsOf rest id

/-- Store through a cell pointer in the map: `*addr = v`. -/
def storeCell (hp : List (ThreadId × List HPCell)) (addr : CellRef) (v : HPCell) :
    List (ThreadId × List HPCell) :=
  hp.map fun ts => if ts.1 = addr.tid then (ts.1, ts.2.set addr.idx v) else ts

/-- Load through a cell pointer: `*addr`.  Every pointer the code builds comes
from `Create` and points at a slot of a registered thread; for any other
reference the load is taken to give `nullptr`. -/
def MapHazardPtrsStorage.read (s : MapHazardPtrsStorage) (addr : CellRef) : HPCell :=
  match cellsOf s.HPStorage addr.tid with
  | some cells => cells.getD addr.idx nullptr
  | none => nullptr

/-- Embeds `*addr = v`. -/
def MapHazardPtrsStorage.write (s : MapHazardPtrsStorage) (addr : CellRef) (v : HPCell) :
    MapHazardPtrsStorage :=
  ⟨storeCell s.HPStorage addr v, s.RetireStorage⟩

/-- The two nested loops of the lambda in `ReclaimUnprotected`: does some cell
of some registered thread equal `reclaimCandidate`? -/
def isProtected (hp : List (ThreadId × List HPCell)) (reclaimCandidate : HPCell) : Bool :=
  hp.any fun ts => ts.2.any fun protectedAddr => protectedAddr == reclaimCandidate

/-- The outer loop of `ReclaimUnprotected` over the records from position `i`
on.  A protected record is skipped; for an unprotected one `reclaim` is
invoked, which throws when the function object is empty and ends the loop. -/
def reclaimLoop (hp : List (ThreadId × List HPCell)) (self : ThreadId) :
    Nat → List Record → List Call × Option Exn
  | _, [] => ([], none)
  | i, (reclaimCandidate, deleter) :: rest =>
    if isProtected hp reclaimCandidate then reclaimLoop hp self (i + 1) rest
    else
      match deleter with
      | none => ([], some Exn.bad_function_call)
      | some f =>
        let r := reclaimLoop hp self (i + 1) rest
        (⟨self, i, reclaimCandidate, f⟩ :: r.1, r.2)

/-- Embeds `void ReclaimUnprotected()` run by thread `self`.  The body never assigns
to `RetireStorage` or `HPStorage`, so the state is handed back as it came. -/
def MapHazardPtrsStorage.ReclaimUnprotected (s : MapHazardPtrsStorage) (self : ThreadId) :
    Effect :=
  let r := reclaimLoop s.HPStorage self 0 (s.RetireStorage self)
  ⟨s, r.1, r.2⟩

/-- Embeds `RetireStorage.push_back(r)` on thread `self`. -/
def MapHazardPtrsStorage.push_back (s : MapHazardPtrsStorage) (self : ThreadId) (r : Record) :
    MapHazardPtrsStorage :=
  ⟨s.HPStorage, fun t => if t = self then s.RetireStorage t ++ [r] else s.RetireStorage t⟩

/-- Embeds `void Retire(HPCell* addr, const std::function<void(void*)>& reclaim)` run
by thread `self`.  When the scan throws, the `push_back` is not reached. -/
def MapHazardPtrsStorage.Retire (s : MapHazardPtrsStorage) (self : ThreadId) (addr : CellRef)
    (reclaim : Callback) : Effect :=
  let oldValue := s.read addr
  let s1 := s.write addr nullptr
  if (s1.RetireStorage self).length = Size * MAX_THREADS_AMNT + 1 then
    let r := s1.ReclaimUnprotected self
    match r.raised with
    | some e => ⟨r.state, r.calls, some e⟩
    | none => ⟨r.state.push_back self (oldValue, reclaim), r.calls, none⟩
  else ⟨s1.push_back self (oldValue, reclaim), [], none⟩

/-- Embeds `HPStorage[id]`: the `operator[]` of the map registers an unknown thread
with a value-initialised array, `Size` null cells. -/
def touch (hp : List (ThreadId × List HPCell)) (id : ThreadId) : List (ThreadId × List HPCell) :=
  match cellsOf hp id with
  | some _ => hp
  | none => hp ++ [(id, List.replicate Size nullptr)]

/-- Embeds `std::find(begin, end, nullptr)`: the position of the first null cell,
counted from `i`; `none` stands for `end()`. -/
def findFree : Nat → List HPCell → Option Nat
  | _, [] => none
  | i, c :: rest => if c = nullptr then some i else findFree (i + 1) rest

/-- Embeds `HazardPtr Create(std::__thread_id id, std::function<void(HPCell)> deleter)`:
the state afterwards (the thread is registered also when the call throws) and
either the new handle or the exception. -/
def MapHazardPtrsStorage.Create (s : MapHazardPtrsStorage) (id : ThreadId) (deleter : Callback) :
    MapHazardPtrsStorage × Except Exn HazardPtr :=
  let hp := touch s.HPStorage id
  let threadLocalHazardPtrs := (cellsOf hp id).getD []
  match findFree 0 threadLocalHazardPtrs with
  | none => (⟨hp, s.RetireStorage⟩, Except.error Exn.runtime_error)
  | some freePtr => (⟨hp, s.RetireStorage⟩, Except.ok ⟨some ⟨id, freePtr⟩, deleter⟩)

/-- Embeds `HazardPtrManager::Create(deleter)` called on thread `self`. -/
def HazardPtrManager.Create (s : MapHazardPtrsStorage) (self : ThreadId) (deleter : Callback) :
    MapHazardPtrsStorage × Except Exn HazardPtr :=
  s.Create self deleter

/-- Embeds `HazardPtrManager::Reclaim(addr, reclaim)` called on thread `self`. -/
def HazardPtrManager.Reclaim (s : MapHazardPtrsStorage) (self : ThreadId) (addr : CellRef)
    (reclaim : Callback) : Effect :=
  s.Retire self addr reclaim

/-- Embeds `MakeHazardPtr()`: `Create()` with the default, empty deleter. -/
def MakeHazardPtr (s : MapHazardPtrsStorage) (self : ThreadId) :
    MapHazardPtrsStorage × Except Exn HazardPtr :=
  HazardPtrManager.Create s self none

/-- Embeds `bool HazardPtr::Empty() const`; `none` when the cell pointer is null. -/
def HazardPtr.Empty (h : HazardPtr) (s : MapHazardPtrsStorage) : Option Bool :=
  match h.ThreadLocalCellAddr with
  | some c => some (s.read c == nullptr)
  | none => none

/-- The `do ... while` loop of `HazardPtr::Protect` on the cell `cell`.  The
atomic is the sequence `varToProtect` of the values its successive loads
return, `n` is the number of loads done so far and the first argument bounds
the number of iterations.  Gives the pointer returned, the number of loads
done and the state; `none` when the bound is used up. -/
def protectLoop (cell : CellRef) (varToProtect : Nat → HPCell) :
    Nat → Nat → MapHazardPtrsStorage → Option (HPCell × Nat × MapHazardPtrsStorage)
  | 0, _, _ => none
  | fuel + 1, n, s =>
    let ptr := varToProtect n
    let s1 := s.write cell ptr
    if ptr ≠ varToProtect (n + 1) then protectLoop cell varToProtect fuel (n + 2) s1
    else some (ptr, n + 2, s1)

/-- Embeds `T* HazardPtr::Protect(const std::atomic<T*>&)`; `none` when the cell
pointer is null or the iteration bound is used up. -/
def HazardPtr.Protect (h : HazardPtr) (varToProtect : Nat → HPCell) (fuel : Nat)
    (s : MapHazardPtrsStorage) : Option (HPCell × Nat × MapHazardPtrsStorage) :=
  match h.ThreadLocalCellAddr with
  | some c => protectLoop c varToProtect fuel 0 s
  | none => none

/-- Embeds `void HazardPtr::Retire()` called on thread `self`; `none` when the cell
pointer is null. -/
def HazardPtr.Retire (h : HazardPtr) (self : ThreadId) (s : MapHazardPtrsStorage) :
    Option Effect :=
  match h.ThreadLocalCellAddr with
  | some c => some (HazardPtrManager.Reclaim s self c h.Deleter)
  | none => none

/-- Embeds `HazardPtr::~HazardPtr()`: `*ThreadLocalCellAddr = nullptr;` and nothing
else; `none` when the cell pointer is null. -/
def HazardPtr.destroy (h : HazardPtr) (s : MapHazardPtrsStorage) : Option Effect :=
  match h.ThreadLocalCellAddr with
  | some c => some ⟨s.write c nullptr, [], none⟩
  | none => none

/-- Embeds `HazardPtr(HazardPtr&& hp)`.  The initialiser list names
`ThreadLocalCellAddr` only, so the `Deleter` of the new handle takes its
default member initialiser `{}`, the empty function object; the body sets the
cell pointer of `hp` to null and leaves its `Deleter` alone.  Gives the new
handle and what is left of `hp`. -/
def HazardPtr.move (hp : HazardPtr) : HazardPtr × HazardPtr :=
  (⟨hp.ThreadLocalCellAddr, none⟩, ⟨none, hp.Deleter⟩)

/-- The pointer `addr` points at a slot of the array of a registered thread. -/
def MapHazardPtrsStorage.validRef (s : MapHazardPtrsStorage) (addr : CellRef) : Bool :=
  match cellsOf s.HPStorage addr.tid with
  | some cells => decide (addr.idx < cells.length)
  | none => false

/-- Every registered thread owns an array of `Size` cells
(`std::array<detail::HPCell, Size>`). -/
def MapHazardPtrsStorage.WF (s : MapHazardPtrsStorage) : Prop :=
  ∀ ts ∈ s.HPStorage, ts.2.length = Size

/-- The cells of thread `id` as `HPStorage[id]` gives them: those of the map
for a registered thread, `Size` null cells for a thread not seen before. -/
def MapHazardPtrsStorage.threadCells (s : MapHazardPtrsStorage) (id : ThreadId) : List HPCell :=
  (cellsOf (touch s.HPStorage id) id).getD []

/-- The operations of a serialized run, as a client program issues them.
Handles are named by their order of creation. -/
inductive Op where
  /-- Thread `self` runs `manager.Create(deleter)`. -/
  | create (self : ThreadId) (deleter : Callback)
  /-- Handle `h` runs `Protect` on an atomic that holds `v` throughout. -/
  | protect (h : Nat) (v : HPCell)
  /-- Thread `self` runs `Retire()` on handle `h`. -/
  | retire (self : ThreadId) (h : Nat)
  /-- The destructor of handle `h` runs. -/
  | destroy (h : Nat)
deriving DecidableEq, Repr

/-- A run so far: the storage, the handles created (in order, each with the
flag "not yet destroyed"), the callbacks invoked (in order) and the exceptions
thrown (in order). -/
structure Run where
  state : MapHazardPtrsStorage
  handles : List (HazardPtr × Bool)
  calls : List Call
  raised : List Exn

/-- The run before anything happened, right after `SetStorageType`. -/
def Run.init : Run :=
  ⟨MapHazardPtrsStorage.init, [], [], []⟩

/-- The handle number `h`, when it was created and is not yet destroyed. -/
def Run.handle (r : Run) (h : Nat) : Option HazardPtr :=
  match r.handles[h]? with
  | some (hp, true) => some hp
  | _ => none

/-- The number of live handles bound to a cell of thread `id`, that is, made
by `Create` calls of that thread and not yet destroyed. -/
def Run.liveCount (r : Run) (id : ThreadId) : Nat :=
  (r.handles.filter fun hb =>
    hb.2 && decide (hb.1.ThreadLocalCellAddr.map CellRef.tid = some id)).length

/-- Every cell that holds a non-null address is the cell of a live handle. -/
def Run.CellsOwned (r : Run) : Prop :=
  ∀ (t : ThreadId) (cells : List HPCell) (j : Nat),
    cellsOf r.state.HPStorage t = some cells → cells.getD j nullptr ≠ nullptr →
      ∃ d : Callback, ((⟨some ⟨t, j⟩, d⟩ : HazardPtr), true) ∈ r.handles

/-- One operation of a run.  An operation on a handle that was never created,
that is destroyed already, or whose cell pointer is null, is left out of the
run: a program cannot issue it. -/
def Run.step (r : Run) : Op → Run
  | Op.create self deleter =>
    match HazardPtrManager.Create r.state self deleter with
    | (s, Except.ok h) => ⟨s, r.handles ++ [(h, true)], r.calls, r.raised⟩
    | (s, Except.error e) => ⟨s, r.handles, r.calls, r.raised ++ [e]⟩
  | Op.protect h v =>
    match r.handle h with
    | some hp =>
      match hp.Protect (fun _ => v) 1 r.state with
      | some res => ⟨res.2.2, r.handles, r.calls, r.raised⟩
      | none => r
    | none => r
  | Op.retire self h =>
    match r.handle h with
    | some hp =>
      match hp.Retire self r.state with
      | some e => ⟨e.state, r.handles, r.calls ++ e.calls, r.raised ++ e.raised.toList⟩
      | none => r
    | none => r
  | Op.destroy h =>
    match r.handle h with
    | some hp =>
      match hp.destroy r.state with
      | some e =>
        ⟨e.state, r.handles.set h (hp, false), r.calls ++ e.calls, r.raised ++ e.raised.toList⟩
      | none => r
    | none => r

/-- A whole run: the operations one after the other. -/
def Run.exec (r : Run) (ops : List Op) : Run :=
  ops.foldl Run.step r

/-- A thread ends: the run so far with the `thread_local` vector `RetireStorage`
of thread `self` destroyed.  Destroying the vector destroys the function
objects stored in it and invokes none of them; the cells of the thread stay in
`HPStorage`, which never erases an entry. -/
def Run.threadExit (r : Run) (self : ThreadId) : Run :=
  ⟨⟨r.state.HPStorage, fun t => if t = self then [] else r.state.RetireStorage t⟩,
    r.handles, r.calls, r.raised⟩

/-- The body of `thread1` of `main.cpp` up to its sleep: thread 1 creates a
handle (number 0) without deleter and protects `O`. -/
def mainThread1Ops (O : HPCell) : List Op :=
  [Op.create 1 none, Op.protect 0 O]

/-- The body of `thread2` of `main.cpp`: thread 2 creates a handle (number 1)
without deleter and protects `O`; the handle is destroyed at the end of the
body. -/
def mainThread2Ops (O : HPCell) : List Op :=
  [Op.create 2 none, Op.protect 1 O, Op.destroy 1]

/-- The body of `thread3` of `main.cpp`: thread 3 creates a handle (number 2)
with the deleter `f`, protects `O` and calls `Retire()` ten times; the handle
is destroyed at the end of the body. -/
def mainThread3Ops (O : HPCell) (f : Nat) : List Op :=
  [Op.create 3 (some f), Op.protect 2 O] ++ List.replicate 10 (Op.retire 3 2) ++ [Op.destroy 2]

/-- The run of `main.cpp`, serialized, up to the moment the body of `thread3`
is through and thread 3 is about to end: thread 1 has run up to its sleep,
thread 2 has run and ended, thread 3 has run its body. -/
def mainRunThread3Done (O : HPCell) (f : Nat) : Run :=
  ((((Run.init.exec (mainThread1Ops O)).exec (mainThread2Ops O)).threadExit 2).exec
    (mainThread3Ops O f))

/-- The whole run of `main.cpp`, serialized: after the above thread 3 ends,
then thread 1 wakes up, its handle is destroyed and thread 1 ends. -/
def mainRun (O : HPCell) (f : Nat) : Run :=
  ((((mainRunThread3Done O f).threadExit 3).exec [Op.destroy 0]).threadExit 1)

end Concurrent

namespace Concurrent

/-! ## The scan -/

theorem isProtected_eq_false_iff (hp : List (ThreadId × List HPCell)) (a : HPCell) :
    isProtected hp a = false ↔ ∀ ts ∈ hp, ∀ p ∈ ts.2, p ≠ a := by
  unfold isProtected
  rw [Bool.eq_false_iff]
  simp only [ne_eq, List.any_eq_true, beq_iff_eq, not_exists, not_and]

theorem isProtected_eq_true_iff (hp : List (ThreadId × List HPCell)) (a : HPCell) :
    isProtected hp a = true ↔ ∃ ts ∈ hp, a ∈ ts.2 := by
  unfold isProtected
  simp only [List.any_eq_true, beq_iff_eq]
  constructor
  · rintro ⟨ts, hts, p, hp', rfl⟩
    exact ⟨ts, hts, hp'⟩
  · rintro ⟨ts, hts, hp'⟩
    exact ⟨ts, hts, a, hp', rfl⟩

theorem cellsOf_mem (t : ThreadId) (cells : List HPCell) :
    ∀ hp : List (ThreadId × List HPCell), cellsOf hp t = some cells → (t, cells) ∈ hp := by
  intro hp
  induction hp with
  | nil => intro h; simp [cellsOf] at h
  | cons ts rest ih =>
    intro h
    unfold cellsOf at h
    split at h
    · rename_i ht
      simp only [Option.some.injEq] at h
      rw [← ht, ← h]
      exact List.mem_cons_self _ _
    · exact List.mem_cons_of_mem _ (ih h)

/-- Every call of the loop is made for the scanning thread, on the record at
the position it names, and that record is unprotected. -/
theorem reclaimLoop_calls (hp : List (ThreadId × List HPCell)) (self : ThreadId)
    (recs : List Record) : ∀ (i : Nat) (c : Call), c ∈ (reclaimLoop hp self i recs).1 →
      c.tid = self ∧ i ≤ c.idx ∧ recs[c.idx - i]? = some (c.addr, some c.fn) ∧
        isProtected hp c.addr = false := by
  induction recs with
  | nil => intro i c hc; simp [reclaimLoop] at hc
  | cons r rest ih =>
    intro i c hc
    obtain ⟨cand, del⟩ := r
    unfold reclaimLoop at hc
    by_cases hprot : isProtected hp cand = true
    · rw [if_pos hprot] at hc
      obtain ⟨h1, h2, h3, h4⟩ := ih (i + 1) c hc
      refine ⟨h1, by omega, ?_, h4⟩
      have : c.idx - i = (c.idx - (i + 1)) + 1 := by omega
      rw [this, List.getElem?_cons_succ]
      exact h3
    · rw [if_neg hprot] at hc
      cases del with
      | none => simp at hc
      | some f =>
        simp only [List.mem_cons] at hc
        rcases hc with hc | hc
        · subst hc
          simp only [le_refl, Nat.sub_self, List.getElem?_cons_zero, true_and]
          simpa using hprot
        · obtain ⟨h1, h2, h3, h4⟩ := ih (i + 1) c hc
          refine ⟨h1, by omega, ?_, h4⟩
          have : c.idx - i = (c.idx - (i + 1)) + 1 := by omega
          rw [this, List.getElem?_cons_succ]
          exact h3

theorem Retire_calls_eq (s : MapHazardPtrsStorage) (self : ThreadId) (addr : CellRef)
    (reclaim : Callback) :
    (s.Retire self addr reclaim).calls =
      if (s.RetireStorage self).length = Size * MAX_THREADS_AMNT + 1 then
        (reclaimLoop (s.write addr nullptr).HPStorage self 0 (s.RetireStorage self)).1
      else [] := by
  unfold MapHazardPtrsStorage.Retire MapHazardPtrsStorage.ReclaimUnprotected
  simp only [MapHazardPtrsStorage.write]
  split
  · split <;> rfl
  · rfl

theorem Retire_HPStorage (s : MapHazardPtrsStorage) (self : ThreadId) (addr : CellRef)
    (reclaim : Callback) :
    (s.Retire self addr reclaim).state.HPStorage = (s.write addr nullptr).HPStorage := by
  unfold MapHazardPtrsStorage.Retire MapHazardPtrsStorage.ReclaimUnprotected
  simp only [MapHazardPtrsStorage.write, MapHazardPtrsStorage.push_back]
  split
  · split <;> rfl
  · rfl

/-- C1. Every destructor invocation made during a `Retire` call (by the scan it
may trigger) is made by the calling thread on a record of its retire list, and
the address of that record equals no cell of any registered thread at the time
of the scan, that is, after the retiring cell has been cleared; those are also
the cells of the state the call leaves behind. -/
theorem Retire_invokes_only_unprotected (s : MapHazardPtrsStorage) (self : ThreadId)
    (addr : CellRef) (reclaim : Callback) (c : Call)
    (hc : c ∈ (s.Retire self addr reclaim).calls) :
    c.tid = self ∧ (s.RetireStorage self)[c.idx]? = some (c.addr, some c.fn) ∧
      (∀ ts ∈ (s.write addr nullptr).HPStorage, ∀ p ∈ ts.2, p ≠ c.addr) ∧
      (s.Retire self addr reclaim).state.HPStorage = (s.write addr nullptr).HPStorage := by
  rw [Retire_calls_eq] at hc
  split at hc
  · obtain ⟨h1, _, h3, h4⟩ := reclaimLoop_calls _ _ _ _ _ hc
    refine ⟨h1, by simpa using h3, (isProtected_eq_false_iff _ _).1 h4, Retire_HPStorage _ _ _ _⟩
  · simp at hc

theorem Retire_invokes_only_unprotected_witness :
    (⟨0, 0, 1, 7⟩ : Call) ∈
        ((⟨[(0, [0, 0, 0, 0, 0])], fun _ => [(1, some 7), (0, none), (0, none), (0, none),
            (0, none), (0, none)]⟩ : MapHazardPtrsStorage).Retire 0 ⟨0, 0⟩ (some 7)).calls ∧
      ((⟨0, 0, 1, 7⟩ : Call).tid = 0 ∧
        ((⟨[(0, [0, 0, 0, 0, 0])], fun _ => [(1, some 7), (0, none), (0, none), (0, none),
            (0, none), (0, none)]⟩ : MapHazardPtrsStorage).RetireStorage 0)[
              (⟨0, 0, 1, 7⟩ : Call).idx]? =
          some ((⟨0, 0, 1, 7⟩ : Call).addr, some (⟨0, 0, 1, 7⟩ : Call).fn) ∧
        (∀ ts ∈ ((⟨[(0, [0, 0, 0, 0, 0])], fun _ => [(1, some 7), (0, none), (0, none),
            (0, none), (0, none), (0, none)]⟩ : MapHazardPtrsStorage).write ⟨0, 0⟩
              nullptr).HPStorage, ∀ p ∈ ts.2, p ≠ (⟨0, 0, 1, 7⟩ : Call).addr) ∧
        ((⟨[(0, [0, 0, 0, 0, 0])], fun _ => [(1, some 7), (0, none), (0, none), (0, none),
            (0, none), (0, none)]⟩ : MapHazardPtrsStorage).Retire 0 ⟨0, 0⟩ (some 7)).state.HPStorage =
          ((⟨[(0, [0, 0, 0, 0, 0])], fun _ => [(1, some 7), (0, none), (0, none), (0, none),
            (0, none), (0, none)]⟩ : MapHazardPtrsStorage).write ⟨0, 0⟩ nullptr).HPStorage) :=
  ⟨by decide, Retire_invokes_only_unprotected _ 0 ⟨0, 0⟩ (some 7) ⟨0, 0, 1, 7⟩ (by decide)⟩

/-! ## At most one invocation per record -/

/-- C2, the failing run.  Thread 0 holds a handle with the deleter `7` on
address `1` and one made without a deleter on address `2`; it retires both and
then retires the first handle again until it has called `Retire` eight times.
The seventh call scans, invokes the deleter of the first record and then
throws on the second one, before its `push_back`; the eighth call therefore
scans again and invokes the deleter of the first record a second time. -/
theorem rescan_after_throw_invokes_twice :
    (Run.exec Run.init
        [Op.create 0 (some 7), Op.protect 0 1, Op.create 0 none, Op.protect 1 2,
         Op.retire 0 0, Op.retire 0 1, Op.retire 0 0, Op.retire 0 0, Op.retire 0 0,
         Op.retire 0 0, Op.retire 0 0, Op.retire 0 0]).calls =
      [⟨0, 0, 1, 7⟩, ⟨0, 0, 1, 7⟩] ∧
    (Run.exec Run.init
        [Op.create 0 (some 7), Op.protect 0 1, Op.create 0 none, Op.protect 1 2,
         Op.retire 0 0, Op.retire 0 1, Op.retire 0 0, Op.retire 0 0, Op.retire 0 0,
         Op.retire 0 0, Op.retire 0 0, Op.retire 0 0]).raised =
      [Exn.bad_function_call, Exn.bad_function_call] := by
  decide

theorem Retire_unfold (s : MapHazardPtrsStorage) (self : ThreadId) (addr : CellRef)
    (reclaim : Callback) :
    s.Retire self addr reclaim =
      if (s.RetireStorage self).length = Size * MAX_THREADS_AMNT + 1 then
        match (reclaimLoop (s.write addr nullptr).HPStorage self 0 (s.RetireStorage self)).2 with
        | some e => ⟨s.write addr nullptr,
            (reclaimLoop (s.write addr nullptr).HPStorage self 0 (s.RetireStorage self)).1, some e⟩
        | none => ⟨(s.write addr nullptr).push_back self (s.read addr, reclaim),
            (reclaimLoop (s.write addr nullptr).HPStorage self 0 (s.RetireStorage self)).1, none⟩
      else ⟨(s.write addr nullptr).push_back self (s.read addr, reclaim), [], none⟩ := by
  rfl

theorem reclaimLoop_raised (hp : List (ThreadId × List HPCell)) (self : ThreadId)
    (recs : List Record) : ∀ (i : Nat) (e : Exn), (reclaimLoop hp self i recs).2 = some e →
      e = Exn.bad_function_call := by
  induction recs with
  | nil => intro i e h; simp [reclaimLoop] at h
  | cons r rest ih =>
    intro i e h
    obtain ⟨cand, del⟩ := r
    unfold reclaimLoop at h
    split at h
    · exact ih _ _ h
    · cases del with
      | none => simp at h; exact h.symm
      | some f => exact ih _ _ h

theorem Retire_raised (s : MapHazardPtrsStorage) (self : ThreadId) (addr : CellRef)
    (reclaim : Callback) (e : Exn) (h : (s.Retire self addr reclaim).raised = some e) :
    e = Exn.bad_function_call := by
  rw [Retire_unfold] at h
  split at h
  · split at h
    · rename_i e' he'
      simp only [Option.some.injEq] at h
      subst h
      exact reclaimLoop_raised _ _ _ _ _ he'
    · simp at h
  · simp at h

theorem Retire_RetireStorage_of_ok (s : MapHazardPtrsStorage) (self : ThreadId) (addr : CellRef)
    (reclaim : Callback) (h : (s.Retire self addr reclaim).raised = none) (t : ThreadId) :
    (s.Retire self addr reclaim).state.RetireStorage t =
      if t = self then s.RetireStorage t ++ [(s.read addr, reclaim)] else s.RetireStorage t := by
  rw [Retire_unfold] at h ⊢
  split
  · split
    · rename_i e he
      rw [if_pos (by assumption), he] at h
      simp at h
    · rfl
  · rfl

theorem Retire_RetireStorage_of_raised (s : MapHazardPtrsStorage) (self : ThreadId)
    (addr : CellRef) (reclaim : Callback) (e : Exn)
    (h : (s.Retire self addr reclaim).raised = some e) :
    (s.Retire self addr reclaim).state.RetireStorage = s.RetireStorage := by
  rw [Retire_unfold] at h ⊢
  split
  · split
    · rfl
    · rename_i he
      rw [if_pos (by assumption), he] at h
      simp at h
  · rename_i hlen
    rw [if_neg hlen] at h
    simp at h

theorem reclaimLoop_nodup (hp : List (ThreadId × List HPCell)) (self : ThreadId)
    (recs : List Record) : ∀ (i : Nat), (reclaimLoop hp self i recs).1.Nodup := by
  induction recs with
  | nil => intro i; simp [reclaimLoop]
  | cons r rest ih =>
    intro i
    obtain ⟨cand, del⟩ := r
    unfold reclaimLoop
    split
    · exact ih _
    · cases del with
      | none => simp
      | some f =>
        simp only [List.nodup_cons]
        refine ⟨?_, ih _⟩
        intro hmem
        have := (reclaimLoop_calls hp self rest (i + 1) _ hmem).2.1
        simp at this

theorem Create_RetireStorage (s : MapHazardPtrsStorage) (id : ThreadId) (deleter : Callback) :
    (s.Create id deleter).1.RetireStorage = s.RetireStorage := by
  unfold MapHazardPtrsStorage.Create
  simp only
  split <;> rfl

theorem protectLoop_RetireStorage (cell : CellRef) (varToProtect : Nat → HPCell) :
    ∀ (fuel n : Nat) (s : MapHazardPtrsStorage) (res : HPCell × Nat × MapHazardPtrsStorage),
      protectLoop cell varToProtect fuel n s = some res →
        res.2.2.RetireStorage = s.RetireStorage := by
  intro fuel
  induction fuel with
  | zero => intro n s res h; simp [protectLoop] at h
  | succ fuel ih =>
    intro n s res h
    unfold protectLoop at h
    simp only at h
    split at h
    · have := ih _ _ _ h
      exact this
    · simp only [Option.some.injEq] at h
      subst h
      rfl

/-- The invariant behind "at most once": the log has no repetition, and a
thread with a logged call has already more records than the scan threshold. -/
theorem Run.step_keeps_log_inv (r : Run) (op : Op)
    (hnd : r.calls.Nodup)
    (hlen : ∀ c ∈ r.calls, Size * MAX_THREADS_AMNT + 1 < (r.state.RetireStorage c.tid).length)
    (hq : Exn.bad_function_call ∉ (r.step op).raised) :
    (r.step op).calls.Nodup ∧
      ∀ c ∈ (r.step op).calls,
        Size * MAX_THREADS_AMNT + 1 < ((r.step op).state.RetireStorage c.tid).length := by
  cases op with
  | create self deleter =>
    have hrs := Create_RetireStorage r.state self deleter
    simp only [Run.step, HazardPtrManager.Create]
    split
    · rename_i s' h heq
      have : s'.RetireStorage = r.state.RetireStorage := by rw [← hrs, heq]
      simp only [this]
      exact ⟨hnd, hlen⟩
    · rename_i s' e heq
      have : s'.RetireStorage = r.state.RetireStorage := by rw [← hrs, heq]
      simp only [this]
      exact ⟨hnd, hlen⟩
  | protect h v =>
    simp only [Run.step]
    split
    · rename_i hp _
      split
      · rename_i res hres
        unfold HazardPtr.Protect at hres
        split at hres
        · have := protectLoop_RetireStorage _ _ _ _ _ _ hres
          simp only [this]
          exact ⟨hnd, hlen⟩
        · simp at hres
      · exact ⟨hnd, hlen⟩
    · exact ⟨hnd, hlen⟩
  | destroy h =>
    simp only [Run.step]
    split
    · rename_i hp _
      split
      · rename_i e he
        unfold HazardPtr.destroy at he
        split at he
        · simp only [Option.some.injEq] at he
          subst he
          simp only [List.append_nil, MapHazardPtrsStorage.write]
          exact ⟨hnd, hlen⟩
        · simp at he
      · exact ⟨hnd, hlen⟩
    · exact ⟨hnd, hlen⟩
  | retire self h =>
    simp only [Run.step] at hq ⊢
    split
    · rename_i hp hhp
      simp only [hhp] at hq
      split
      · rename_i e he
        simp only [he] at hq
        unfold HazardPtr.Retire HazardPtrManager.Reclaim at he
        split at he
        · rename_i c _
          simp only [Option.some.injEq] at he
          subst he
          have hraised : (r.state.Retire self c hp.Deleter).raised = none := by
            cases hr : (r.state.Retire self c hp.Deleter).raised with
            | none => rfl
            | some e =>
              have := Retire_raised _ _ _ _ _ hr
              subst this
              simp [hr] at hq
          have hRS := Retire_RetireStorage_of_ok _ _ _ _ hraised
          have hcalls := Retire_calls_eq r.state self c hp.Deleter
          by_cases hsz : (r.state.RetireStorage self).length = Size * MAX_THREADS_AMNT + 1
          · rw [if_pos hsz] at hcalls
            have hnew : ∀ x ∈ (r.state.Retire self c hp.Deleter).calls, x.tid = self := by
              intro x hx
              rw [hcalls] at hx
              exact (reclaimLoop_calls _ _ _ _ _ hx).1
            refine ⟨?_, ?_⟩
            · rw [List.nodup_append]
              refine ⟨hnd, by rw [hcalls]; exact reclaimLoop_nodup _ _ _ _, ?_⟩
              intro x hx1 hx2
              have h1 := hlen x hx1
              rw [hnew x hx2, hsz] at h1
              omega
            · intro x hx
              rw [List.mem_append] at hx
              rw [hRS]
              rcases hx with hx | hx
              · have h1 := hlen x hx
                split
                · simp only [List.length_append, List.length_singleton]
                  omega
                · exact h1
              · rw [if_pos (hnew x hx)]
                simp only [List.length_append, List.length_singleton, hnew x hx, hsz]
                omega
          · rw [if_neg hsz] at hcalls
            rw [hcalls, List.append_nil]
            refine ⟨hnd, ?_⟩
            intro x hx
            rw [hRS]
            have h1 := hlen x hx
            split
            · simp only [List.length_append, List.length_singleton]
              omega
            · exact h1
        · simp at he
      · exact ⟨hnd, hlen⟩
    · exact ⟨hnd, hlen⟩

theorem Run.step_raised_extends (r : Run) (op : Op) :
    ∃ l, (r.step op).raised = r.raised ++ l := by
  cases op with
  | create self deleter =>
    simp only [Run.step]
    split
    · exact ⟨[], by simp⟩
    · exact ⟨_, rfl⟩
  | protect h v =>
    simp only [Run.step]
    split
    · split
      · exact ⟨[], by simp⟩
      · exact ⟨[], by simp⟩
    · exact ⟨[], by simp⟩
  | retire self h =>
    simp only [Run.step]
    split
    · split
      · exact ⟨_, rfl⟩
      · exact ⟨[], by simp⟩
    · exact ⟨[], by simp⟩
  | destroy h =>
    simp only [Run.step]
    split
    · split
      · exact ⟨_, rfl⟩
      · exact ⟨[], by simp⟩
    · exact ⟨[], by simp⟩

theorem Run.exec_append (r : Run) (ops : List Op) (op : Op) :
    r.exec (ops ++ [op]) = (r.exec ops).step op := by
  simp [Run.exec, List.foldl_append]

/-- In a run in which no call threw `std::bad_function_call`, no record has its
deleter invoked twice: the log of invocations (thread, position in the retire
list, address, callable) has no repetition. -/
theorem Run.calls_nodup_of_no_bad_function_call (ops : List Op)
    (hq : Exn.bad_function_call ∉ (Run.exec Run.init ops).raised) :
    (Run.exec Run.init ops).calls.Nodup := by
  suffices h : ∀ ops : List Op, Exn.bad_function_call ∉ (Run.exec Run.init ops).raised →
      (Run.exec Run.init ops).calls.Nodup ∧
        ∀ c ∈ (Run.exec Run.init ops).calls, Size * MAX_THREADS_AMNT + 1 <
          ((Run.exec Run.init ops).state.RetireStorage c.tid).length from (h ops hq).1
  intro ops
  induction ops using List.reverseRecOn with
  | nil =>
    intro _
    simp [Run.exec, Run.init]
  | append_singleton ops op ih =>
    intro hq
    rw [Run.exec_append] at hq ⊢
    obtain ⟨l, hl⟩ := Run.step_raised_extends (Run.exec Run.init ops) op
    have hprev : Exn.bad_function_call ∉ (Run.exec Run.init ops).raised := by
      intro hmem
      apply hq
      rw [hl]
      exact List.mem_append_left _ hmem
    obtain ⟨h1, h2⟩ := ih hprev
    exact Run.step_keeps_log_inv _ _ h1 h2 hq

theorem Run.calls_nodup_of_no_bad_function_call_witness :
    Exn.bad_function_call ∉ (Run.exec Run.init (mainThread3Ops 9 4)).raised ∧
      (Run.exec Run.init (mainThread3Ops 9 4)).calls.Nodup :=
  ⟨by decide, Run.calls_nodup_of_no_bad_function_call (mainThread3Ops 9 4) (by decide)⟩

/-! ## Eventual reclamation -/

/-- C4, where it fails: in the serialized run of `main.cpp` (object at address
`9`, deleter `4`) the number of deleter invocations is not one. -/
theorem main_run_not_once : (mainRun 9 4).calls.length ≠ 1 := by
  decide

/-- C4 as amended.  In the serialized run of `main.cpp`, whatever the address
`O` of the object and the deleter `f`, no deleter is invoked at all and nothing
throws: the one scan, made by the seventh `Retire` of thread 3 while the cell
of thread 1 still holds `O`, skips every record.  When thread 3 is about to
end, the record `(O, f)` is still the first of the ten records of its retire
list and the cell of thread 1 still holds `O`; the list is destroyed with the
thread, so that at the end of the run no retire list holds a record, and every
cell is null. -/
theorem main_run_never_invokes (O : HPCell) (f : Nat) :
    (mainRun O f).calls = [] ∧ (mainRun O f).raised = [] ∧
      (mainRunThread3Done O f).calls = [] ∧
      (mainRunThread3Done O f).state.RetireStorage 3 =
        (O, some f) :: List.replicate 9 (nullptr, some f) ∧
      (mainRunThread3Done O f).state.read ⟨1, 0⟩ = O ∧
      (∀ t, (mainRun O f).state.RetireStorage t = []) ∧
      (mainRun O f).state.HPStorage =
        [(1, List.replicate Size nullptr), (2, List.replicate Size nullptr),
         (3, List.replicate Size nullptr)] := by
  have h1 : (mainRunThread3Done O f).calls = [] ∧ (mainRunThread3Done O f).raised = [] ∧
      (mainRunThread3Done O f).handles =
        [(⟨some ⟨1, 0⟩, none⟩, true), (⟨some ⟨2, 0⟩, none⟩, false),
         (⟨some ⟨3, 0⟩, some f⟩, false)] ∧
      (mainRunThread3Done O f).state.HPStorage =
        [(1, [O, 0, 0, 0, 0]), (2, [0, 0, 0, 0, 0]), (3, [0, 0, 0, 0, 0])] ∧
      (mainRunThread3Done O f).state.RetireStorage =
        fun t => if t = 3 then (O, some f) :: List.replicate 9 (0, some f) else [] := by
    simp [mainRunThread3Done, mainThread1Ops, mainThread2Ops, mainThread3Ops, Run.threadExit,
      Run.exec, Run.step, Run.init, Run.handle, HazardPtrManager.Create,
      MapHazardPtrsStorage.Create, MapHazardPtrsStorage.init, touch, cellsOf, findFree, Size,
      nullptr, HazardPtr.Protect, protectLoop, MapHazardPtrsStorage.write, storeCell,
      HazardPtr.Retire, HazardPtrManager.Reclaim, MapHazardPtrsStorage.Retire,
      MapHazardPtrsStorage.read, MapHazardPtrsStorage.push_back, MAX_THREADS_AMNT,
      MapHazardPtrsStorage.ReclaimUnprotected, reclaimLoop, isProtected, HazardPtr.destroy,
      List.replicate]
    funext t
    by_cases h3 : t = 3
    · subst h3
      simp
    · by_cases h2 : t = 2 <;> simp [h2, h3]
  obtain ⟨hc, hr, hh, hhp, hrs⟩ := h1
  have key : ∀ r : Run, r.calls = [] → r.raised = [] →
      r.handles = [(⟨some ⟨1, 0⟩, none⟩, true), (⟨some ⟨2, 0⟩, none⟩, false),
        (⟨some ⟨3, 0⟩, some f⟩, false)] →
      r.state.HPStorage = [(1, [O, 0, 0, 0, 0]), (2, [0, 0, 0, 0, 0]), (3, [0, 0, 0, 0, 0])] →
      (r.state.RetireStorage =
        fun t => if t = 3 then (O, some f) :: List.replicate 9 (0, some f) else []) →
      (((r.threadExit 3).exec [Op.destroy 0]).threadExit 1).calls = [] ∧
        (((r.threadExit 3).exec [Op.destroy 0]).threadExit 1).raised = [] ∧
        (∀ t, (((r.threadExit 3).exec [Op.destroy 0]).threadExit 1).state.RetireStorage t = []) ∧
        (((r.threadExit 3).exec [Op.destroy 0]).threadExit 1).state.HPStorage =
          [(1, List.replicate Size nullptr), (2, List.replicate Size nullptr),
           (3, List.replicate Size nullptr)] := by
    intro r h1 h2 h3 h4 h5
    obtain ⟨⟨hp, rs⟩, handles, calls, raised⟩ := r
    simp only at h1 h2 h3 h4 h5
    subst h1 h2 h3 h4 h5
    refine ⟨?_, ?_, ?_, ?_⟩
    · simp [Run.threadExit, Run.exec, Run.step, Run.handle, HazardPtr.destroy]
    · simp [Run.threadExit, Run.exec, Run.step, Run.handle, HazardPtr.destroy]
    · intro t
      simp only [Run.threadExit, Run.exec, Run.step, Run.handle, HazardPtr.destroy,
        MapHazardPtrsStorage.write, List.foldl_cons, List.foldl_nil, List.getElem?_cons_zero]
      by_cases h1 : t = 1
      · simp [h1]
      · by_cases h3 : t = 3 <;> simp [h1, h3]
    · simp [Run.threadExit, Run.exec, Run.step, Run.handle, HazardPtr.destroy,
        MapHazardPtrsStorage.write, storeCell, Size, nullptr, List.replicate]
  obtain ⟨k1, k2, k3, k4⟩ := key (mainRunThread3Done O f) hc hr hh hhp hrs
  refine ⟨k1, k2, hc, ?_, ?_, k3, k4⟩
  · rw [hrs]
    simp [nullptr]
  · unfold MapHazardPtrsStorage.read
    rw [hhp]
    simp [cellsOf]

/-! ## The cell map -/

theorem getD_set (cells : List HPCell) (i j : Nat) (v : HPCell) :
    (cells.set i v).getD j nullptr =
      if i = j ∧ i < cells.length then v else cells.getD j nullptr := by
  simp only [List.getD_eq_getElem?_getD, List.getElem?_set]
  by_cases h1 : i = j
  · by_cases h2 : i < cells.length
    · subst h1
      simp [h2]
    · subst h1
      simp [h2]
      rw [List.getElem?_eq_none (by omega)]
      rfl
  · simp [h1]

theorem cellsOf_storeCell (addr : CellRef) (v : HPCell) (t : ThreadId) :
    ∀ hp : List (ThreadId × List HPCell), cellsOf (storeCell hp addr v) t =
      (cellsOf hp t).map fun cells => if t = addr.tid then cells.set addr.idx v else cells := by
  intro hp
  induction hp with
  | nil => rfl
  | cons ts rest ih =>
    unfold storeCell at ih ⊢
    rw [List.map_cons]
    unfold cellsOf
    by_cases h1 : ts.1 = addr.tid
    · by_cases h2 : ts.1 = t
      · have h3 : t = addr.tid := by rw [← h2, h1]
        simp [h1, h2, h3]
      · simp only [h1, h2, if_true, if_false]
        rw [← h1]
        simp only [h2, if_false]
        rw [h1]
        exact ih
    · by_cases h2 : ts.1 = t
      · have h3 : ¬ t = addr.tid := by rw [← h2]; exact h1
        simp [h1, h2, h3]
      · simp only [h1, h2, if_false]
        exact ih

theorem cellsOf_append_singleton (id : ThreadId) (c : List HPCell) (t : ThreadId) :
    ∀ hp : List (ThreadId × List HPCell), cellsOf (hp ++ [(id, c)]) t =
      match cellsOf hp t with
      | some x => some x
      | none => if id = t then some c else none := by
  intro hp
  induction hp with
  | nil => simp [cellsOf]
  | cons ts rest ih =>
    rw [List.cons_append]
    unfold cellsOf
    by_cases h : ts.1 = t
    · simp [h]
    · simp only [h, if_false]
      exact ih

theorem cellsOf_touch (hp : List (ThreadId × List HPCell)) (id t : ThreadId)
    (cells : List HPCell) (h : cellsOf (touch hp id) t = some cells) :
    cellsOf hp t = some cells ∨ (t = id ∧ cells = List.replicate Size nullptr) := by
  unfold touch at h
  split at h
  · exact Or.inl h
  · rw [cellsOf_append_singleton] at h
    split at h
    · rename_i x hx
      rw [hx]
      exact Or.inl h
    · split at h
      · rename_i hid
        simp only [Option.some.injEq] at h
        exact Or.inr ⟨hid.symm, h.symm⟩
      · simp at h

theorem cellsOf_touch_self (hp : List (ThreadId × List HPCell)) (id : ThreadId) :
    cellsOf (touch hp id) id = some ((cellsOf hp id).getD (List.replicate Size nullptr)) := by
  unfold touch
  split
  · rename_i c hc
    simp [hc]
  · rename_i hc
    rw [cellsOf_append_singleton, hc]
    simp

theorem findFree_eq_none_iff (cells : List HPCell) :
    ∀ i : Nat, findFree i cells = none ↔ ∀ c ∈ cells, c ≠ nullptr := by
  induction cells with
  | nil => intro i; simp [findFree]
  | cons c rest ih =>
    intro i
    unfold findFree
    by_cases h : c = nullptr
    · simp [h]
    · simp only [h, if_false, List.mem_cons, forall_eq_or_imp, ne_eq, not_false_eq_true, true_and]
      exact ih (i + 1)

theorem WF_write (s : MapHazardPtrsStorage) (addr : CellRef) (v : HPCell) (h : s.WF) :
    (s.write addr v).WF := by
  intro ts hts
  unfold MapHazardPtrsStorage.write storeCell at hts
  simp only [List.mem_map] at hts
  obtain ⟨ts0, hts0, rfl⟩ := hts
  split
  · simp only [List.length_set]
    exact h ts0 hts0
  · exact h ts0 hts0

theorem WF_touch (hp : List (ThreadId × List HPCell)) (rs : ThreadId → List Record)
    (id : ThreadId) (h : MapHazardPtrsStorage.WF ⟨hp, rs⟩) :
    MapHazardPtrsStorage.WF ⟨touch hp id, rs⟩ := by
  intro ts hts
  simp only [touch] at hts
  split at hts
  · exact h ts hts
  · rw [List.mem_append] at hts
    rcases hts with hts | hts
    · exact h ts hts
    · simp only [List.mem_singleton] at hts
      subst hts
      simp

theorem Create_HPStorage (s : MapHazardPtrsStorage) (id : ThreadId) (deleter : Callback) :
    (s.Create id deleter).1.HPStorage = touch s.HPStorage id := by
  unfold MapHazardPtrsStorage.Create
  simp only
  split <;> rfl

theorem Create_result (s : MapHazardPtrsStorage) (id : ThreadId) (deleter : Callback) :
    (s.Create id deleter).2 =
      match findFree 0 (s.threadCells id) with
      | none => Except.error Exn.runtime_error
      | some freePtr => Except.ok ⟨some ⟨id, freePtr⟩, deleter⟩ := by
  unfold MapHazardPtrsStorage.Create MapHazardPtrsStorage.threadCells
  simp only
  split <;> simp_all

/-! ## Capacity -/

theorem Run.handle_eq_some (r : Run) (h : Nat) (hp : HazardPtr) (hh : r.handle h = some hp) :
    r.handles[h]? = some (hp, true) := by
  unfold Run.handle at hh
  split at hh
  · rename_i hp' heq
    simp only [Option.some.injEq] at hh
    rw [heq, hh]
  · simp at hh

theorem Protect_unmodified (hp : HazardPtr) (c : CellRef) (hc : hp.ThreadLocalCellAddr = some c)
    (v : HPCell) (fuel : Nat) (s : MapHazardPtrsStorage) :
    hp.Protect (fun _ => v) (fuel + 1) s = some (v, 2, s.write c v) := by
  simp [HazardPtr.Protect, hc, protectLoop]

theorem Run.step_keeps_WF (r : Run) (op : Op) (hwf : r.state.WF) : (r.step op).state.WF := by
  cases op with
  | create self deleter =>
    have hhp := Create_HPStorage r.state self deleter
    have hwt := WF_touch r.state.HPStorage r.state.RetireStorage self hwf
    simp only [Run.step, HazardPtrManager.Create]
    split
    · rename_i s' h heq
      have : s'.HPStorage = touch r.state.HPStorage self := by rw [← hhp, heq]
      intro ts hts
      rw [this] at hts
      exact hwt ts hts
    · rename_i s' e heq
      have : s'.HPStorage = touch r.state.HPStorage self := by rw [← hhp, heq]
      intro ts hts
      rw [this] at hts
      exact hwt ts hts
  | protect h v =>
    simp only [Run.step]
    split
    · rename_i hp _
      split
      · rename_i res hres
        cases hc : hp.ThreadLocalCellAddr with
        | none => simp [HazardPtr.Protect, hc] at hres
        | some c =>
          rw [Protect_unmodified hp c hc] at hres
          simp only [Option.some.injEq] at hres
          subst hres
          exact WF_write _ _ _ hwf
      · exact hwf
    · exact hwf
  | retire self h =>
    simp only [Run.step]
    split
    · rename_i hp _
      split
      · rename_i e he
        unfold HazardPtr.Retire HazardPtrManager.Reclaim at he
        split at he
        · rename_i c _
          simp only [Option.some.injEq] at he
          subst he
          intro ts hts
          rw [Retire_HPStorage] at hts
          exact WF_write _ _ _ hwf ts hts
        · simp at he
      · exact hwf
    · exact hwf
  | destroy h =>
    simp only [Run.step]
    split
    · rename_i hp _
      split
      · rename_i e he
        unfold HazardPtr.destroy at he
        split at he
        · simp only [Option.some.injEq] at he
          subst he
          exact WF_write _ _ _ hwf
        · simp at he
      · exact hwf
    · exact hwf

/-- A store of `v` through `c`: a cell that is non-null afterwards is the cell
`c` itself, holding `v`, or was non-null before. -/
theorem cellsOf_write_nonnull (s : MapHazardPtrsStorage) (c : CellRef) (v : HPCell)
    (t : ThreadId) (cells : List HPCell) (j : Nat)
    (h : cellsOf (s.write c v).HPStorage t = some cells)
    (hj : cells.getD j nullptr ≠ nullptr) :
    (t = c.tid ∧ j = c.idx ∧ v ≠ nullptr) ∨
      (¬ (t = c.tid ∧ j = c.idx) ∧
        ∃ cells0, cellsOf s.HPStorage t = some cells0 ∧ cells0.getD j nullptr ≠ nullptr) := by
  simp only [MapHazardPtrsStorage.write] at h
  rw [cellsOf_storeCell] at h
  cases h0 : cellsOf s.HPStorage t with
  | none => simp [h0] at h
  | some cells0 =>
    simp only [h0, Option.map_some', Option.some.injEq] at h
    by_cases ht : t = c.tid
    · rw [if_pos ht] at h
      subst h
      rw [getD_set] at hj
      by_cases hji : c.idx = j ∧ c.idx < cells0.length
      · rw [if_pos hji] at hj
        exact Or.inl ⟨ht, hji.1.symm, hj⟩
      · rw [if_neg hji] at hj
        by_cases hidx : j = c.idx
        · have hge : ¬ j < cells0.length := fun hlt => hji ⟨hidx.symm, hidx ▸ hlt⟩
          exfalso
          apply hj
          rw [List.getD_eq_getElem?_getD, List.getElem?_eq_none (by omega)]
          rfl
        · exact Or.inr ⟨fun hh => hidx hh.2, cells0, rfl, hj⟩
    · rw [if_neg ht] at h
      subst h
      exact Or.inr ⟨fun hh => ht hh.1, cells0, rfl, hj⟩

theorem Run.step_keeps_CellsOwned (r : Run) (op : Op) (hown : r.CellsOwned) :
    (r.step op).CellsOwned := by
  cases op with
  | create self deleter =>
    have hhp := Create_HPStorage r.state self deleter
    have key : ∀ (s' : MapHazardPtrsStorage) (hs : List (HazardPtr × Bool)) (cs : List Call)
        (es : List Exn), s'.HPStorage = touch r.state.HPStorage self → r.handles ⊆ hs →
          Run.CellsOwned ⟨s', hs, cs, es⟩ := by
      intro s' hs cs es h1 h2 t cells j hcells hj
      simp only [h1] at hcells
      rcases cellsOf_touch _ _ _ _ hcells with h3 | ⟨_, h3⟩
      · obtain ⟨d, hd⟩ := hown t cells j h3 hj
        exact ⟨d, h2 hd⟩
      · subst h3
        exfalso
        apply hj
        rw [List.getD_eq_getElem?_getD]
        by_cases hlt : j < Size
        · rw [List.getElem?_eq_getElem (by simpa using hlt)]
          simp
        · rw [List.getElem?_eq_none (by simpa using hlt)]
          rfl
    simp only [Run.step, HazardPtrManager.Create]
    split
    · rename_i s' h heq
      exact key _ _ _ _ (by rw [← hhp, heq]) (List.subset_append_left _ _)
    · rename_i s' e heq
      exact key _ _ _ _ (by rw [← hhp, heq]) (List.Subset.refl _)
  | protect h v =>
    simp only [Run.step]
    split
    · rename_i hp hh
      split
      · rename_i res hres
        cases hc : hp.ThreadLocalCellAddr with
        | none => simp [HazardPtr.Protect, hc] at hres
        | some c =>
          rw [Protect_unmodified hp c hc] at hres
          simp only [Option.some.injEq] at hres
          subst hres
          intro t cells j hcells hj
          rcases cellsOf_write_nonnull _ _ _ _ _ _ hcells hj with ⟨h1, h2, _⟩ | ⟨_, c0, h1, h2⟩
          · refine ⟨hp.Deleter, ?_⟩
            have hmem := List.getElem?_mem (Run.handle_eq_some r h hp hh)
            have : (⟨some ⟨t, j⟩, hp.Deleter⟩ : HazardPtr) = hp := by
              cases hp
              simp only [HazardPtr.mk.injEq, and_true] at hc ⊢
              rw [hc, h1, h2]
            rw [this]
            exact hmem
          · exact hown t c0 j h1 h2
      · exact hown
    · exact hown
  | retire self h =>
    simp only [Run.step]
    split
    · rename_i hp _
      split
      · rename_i e he
        unfold HazardPtr.Retire HazardPtrManager.Reclaim at he
        split at he
        · rename_i c _
          simp only [Option.some.injEq] at he
          subst he
          intro t cells j hcells hj
          simp only [Retire_HPStorage] at hcells
          rcases cellsOf_write_nonnull _ _ _ _ _ _ hcells hj with ⟨_, _, h3⟩ | ⟨_, c0, h1, h2⟩
          · exact absurd rfl h3
          · exact hown t c0 j h1 h2
        · simp at he
      · exact hown
    · exact hown
  | destroy h =>
    simp only [Run.step]
    split
    · rename_i hp hh
      split
      · rename_i e he
        unfold HazardPtr.destroy at he
        split at he
        · rename_i c hc
          simp only [Option.some.injEq] at he
          subst he
          intro t cells j hcells hj
          rcases cellsOf_write_nonnull _ _ _ _ _ _ hcells hj with ⟨_, _, h3⟩ | ⟨hne, c0, h1, h2⟩
          · exact absurd rfl h3
          · obtain ⟨d, hd⟩ := hown t c0 j h1 h2
            refine ⟨d, ?_⟩
            obtain ⟨k, hk⟩ := List.getElem?_of_mem hd
            have hkh : h ≠ k := by
              intro hkh
              subst hkh
              rw [Run.handle_eq_some r h hp hh] at hk
              simp only [Option.some.injEq, Prod.mk.injEq, and_true] at hk
              rw [hk] at hc
              simp only [Option.some.injEq] at hc
              subst hc
              exact hne ⟨rfl, rfl⟩
            have hk2 : (r.handles.set h (hp, false))[k]? =
                some ((⟨some ⟨t, j⟩, d⟩ : HazardPtr), true) := by
              rw [List.getElem?_set_ne hkh]
              exact hk
            exact List.getElem?_mem hk2
        · simp at he
      · exact hown
    · exact hown

theorem Run.exec_reachable_inv (ops : List Op) :
    (Run.exec Run.init ops).state.WF ∧ (Run.exec Run.init ops).CellsOwned := by
  induction ops using List.reverseRecOn with
  | nil =>
    constructor
    · intro ts hts
      simp [Run.exec, Run.init, MapHazardPtrsStorage.init] at hts
    · intro t cells j h
      simp [Run.exec, Run.init, MapHazardPtrsStorage.init, cellsOf] at h
  | append_singleton ops op ih =>
    rw [Run.exec_append]
    exact ⟨Run.step_keeps_WF _ _ ih.1, Run.step_keeps_CellsOwned _ _ ih.2⟩

theorem threadCells_eq (s : MapHazardPtrsStorage) (id : ThreadId) :
    s.threadCells id = (cellsOf s.HPStorage id).getD (List.replicate Size nullptr) := by
  unfold MapHazardPtrsStorage.threadCells
  rw [cellsOf_touch_self]
  rfl

theorem threadCells_length (s : MapHazardPtrsStorage) (hwf : s.WF) (id : ThreadId) :
    (s.threadCells id).length = Size := by
  rw [threadCells_eq]
  cases h : cellsOf s.HPStorage id with
  | none => simp
  | some cells => exact hwf _ (cellsOf_mem _ _ _ h)

/-- When every cell of a thread is non-null, the thread has at least `Size`
live handles: each cell is the cell of one, and the cells differ. -/
theorem Run.liveCount_ge_of_full (r : Run) (hwf : r.state.WF) (hown : r.CellsOwned)
    (id : ThreadId) (hfull : ∀ c ∈ r.state.threadCells id, c ≠ nullptr) :
    Size ≤ r.liveCount id := by
  have hlen := threadCells_length r.state hwf id
  rw [threadCells_eq] at hfull hlen
  cases hc : cellsOf r.state.HPStorage id with
  | none =>
    rw [hc] at hfull
    exact absurd rfl (hfull nullptr (by simp [Size]))
  | some cells =>
    rw [hc] at hfull hlen
    simp only [Option.getD_some] at hfull hlen
    have hsub : (List.range Size).map (fun j => some (⟨id, j⟩ : CellRef)) ⊆
        (r.handles.filter fun hb =>
          hb.2 && decide (hb.1.ThreadLocalCellAddr.map CellRef.tid = some id)).map
            fun hb => hb.1.ThreadLocalCellAddr := by
      intro x hx
      rw [List.mem_map] at hx
      obtain ⟨j, hj, rfl⟩ := hx
      rw [List.mem_range] at hj
      have hjc : j < cells.length := by omega
      have hnn : cells.getD j nullptr ≠ nullptr := by
        rw [List.getD_eq_getElem?_getD, List.getElem?_eq_getElem hjc]
        exact hfull _ (List.getElem_mem _)
      obtain ⟨d, hd⟩ := hown id cells j hc hnn
      rw [List.mem_map]
      refine ⟨(⟨some ⟨id, j⟩, d⟩, true), ?_, rfl⟩
      rw [List.mem_filter]
      exact ⟨hd, by simp⟩
    have hnd : ((List.range Size).map (fun j => some (⟨id, j⟩ : CellRef))).Nodup := by
      apply List.Nodup.map _ (List.nodup_range _)
      intro a b hab
      simpa using hab
    have := (List.Nodup.subperm hnd hsub).length_le
    simpa [Run.liveCount] using this

/-- C5, where it fails.  Thread 0 calls `Create` six times and destroys nothing.
Every call succeeds, nothing throws, and all six live handles are bound to
the same cell, slot 0. -/
theorem sixth_Create_succeeds :
    (Run.exec Run.init (List.replicate 6 (Op.create 0 none))).raised = [] ∧
      (Run.exec Run.init (List.replicate 6 (Op.create 0 none))).handles =
        List.replicate 6 (⟨some ⟨0, 0⟩, none⟩, true) ∧
      (Run.exec Run.init (List.replicate 5 (Op.create 0 none))).liveCount 0 = 5 := by
  decide

/-- C5 as amended.  In every state a run can reach, thread `id` has `Size`
cells, and `Create` by that thread throws `std::runtime_error` exactly when all
of them hold non-null addresses, in which case the thread has at least `Size`
live handles; when some cell is null it succeeds, so in particular it succeeds
whenever the thread has fewer than `Size` live handles.  A live handle whose
cell is null does not count against the capacity. -/
theorem Create_capacity (ops : List Op) (id : ThreadId) (deleter : Callback) :
    ((Run.exec Run.init ops).liveCount id < Size →
        ∃ freePtr, (HazardPtrManager.Create (Run.exec Run.init ops).state id deleter).2 =
          Except.ok ⟨some ⟨id, freePtr⟩, deleter⟩) ∧
      ((HazardPtrManager.Create (Run.exec Run.init ops).state id deleter).2 =
          Except.error Exn.runtime_error ↔
        ∀ c ∈ (Run.exec Run.init ops).state.threadCells id, c ≠ nullptr) ∧
      ((∃ c ∈ (Run.exec Run.init ops).state.threadCells id, c = nullptr) →
        ∃ freePtr, (HazardPtrManager.Create (Run.exec Run.init ops).state id deleter).2 =
          Except.ok ⟨some ⟨id, freePtr⟩, deleter⟩) ∧
      ((∀ c ∈ (Run.exec Run.init ops).state.threadCells id, c ≠ nullptr) →
        Size ≤ (Run.exec Run.init ops).liveCount id) ∧
      ((Run.exec Run.init ops).state.threadCells id).length = Size := by
  obtain ⟨hwf, hown⟩ := Run.exec_reachable_inv ops
  have hsome : (¬ ∀ c ∈ (Run.exec Run.init ops).state.threadCells id, c ≠ nullptr) →
      ∃ freePtr, (HazardPtrManager.Create (Run.exec Run.init ops).state id deleter).2 =
        Except.ok ⟨some ⟨id, freePtr⟩, deleter⟩ := by
    intro hnot
    unfold HazardPtrManager.Create
    rw [Create_result]
    cases hf : findFree 0 ((Run.exec Run.init ops).state.threadCells id) with
    | none => exact absurd ((findFree_eq_none_iff _ _).1 hf) hnot
    | some freePtr => exact ⟨freePtr, rfl⟩
  refine ⟨?_, ?_, ?_, Run.liveCount_ge_of_full _ hwf hown id, threadCells_length _ hwf id⟩
  · intro hlive
    apply hsome
    intro hfull
    have := Run.liveCount_ge_of_full _ hwf hown id hfull
    omega
  · constructor
    · intro herr
      by_contra hnot
      obtain ⟨freePtr, hok⟩ := hsome hnot
      rw [hok] at herr
      simp at herr
    · intro hfull
      unfold HazardPtrManager.Create
      rw [Create_result, (findFree_eq_none_iff _ 0).2 hfull]
  · rintro ⟨c, hc, hnull⟩
    apply hsome
    intro hfull
    exact hfull c hc hnull

theorem Create_capacity_witness :
    ((Run.exec Run.init [Op.create 0 none, Op.protect 0 1]).liveCount 0 < Size ∧
        ∃ freePtr, (HazardPtrManager.Create
          (Run.exec Run.init [Op.create 0 none, Op.protect 0 1]).state 0 (some 3)).2 =
            Except.ok ⟨some ⟨0, freePtr⟩, some 3⟩) ∧
      ((∀ c ∈ (Run.exec Run.init
          [Op.create 0 none, Op.protect 0 1, Op.create 0 none, Op.protect 1 1,
           Op.create 0 none, Op.protect 2 1, Op.create 0 none, Op.protect 3 1,
           Op.create 0 none, Op.protect 4 1]).state.threadCells 0, c ≠ nullptr) ∧
        (HazardPtrManager.Create (Run.exec Run.init
          [Op.create 0 none, Op.protect 0 1, Op.create 0 none, Op.protect 1 1,
           Op.create 0 none, Op.protect 2 1, Op.create 0 none, Op.protect 3 1,
           Op.create 0 none, Op.protect 4 1]).state 0 (some 3)).2 =
          Except.error Exn.runtime_error) ∧
      ((∃ c ∈ (Run.exec Run.init (List.replicate 5 (Op.create 0 none))).state.threadCells 0,
          c = nullptr) ∧
        ∃ freePtr, (HazardPtrManager.Create
          (Run.exec Run.init (List.replicate 5 (Op.create 0 none))).state 0 (some 3)).2 =
            Except.ok ⟨some ⟨0, freePtr⟩, some 3⟩) :=
  ⟨⟨by decide, (Create_capacity [Op.create 0 none, Op.protect 0 1] 0 (some 3)).1 (by decide)⟩,
    ⟨by decide, (Create_capacity [Op.create 0 none, Op.protect 0 1, Op.create 0 none,
      Op.protect 1 1, Op.create 0 none, Op.protect 2 1, Op.create 0 none, Op.protect 3 1,
      Op.create 0 none, Op.protect 4 1] 0 (some 3)).2.1.2 (by decide)⟩,
    ⟨by decide, (Create_capacity (List.replicate 5 (Op.create 0 none)) 0 (some 3)).2.2.1
      (by decide)⟩⟩

/-! ## What a scan leaves behind -/

/-- C6, where it fails.  Thread 0 scans a retire list whose only record `(1, 7)`
is unprotected: the deleter is invoked, and the record is still in the list
afterwards, although none of the records is protected. -/
theorem scan_keeps_reclaimed_record :
    ((⟨[(0, [0, 0, 0, 0, 0])], fun _ => [(1, some 7)]⟩ :
        MapHazardPtrsStorage).ReclaimUnprotected 0).calls = [⟨0, 0, 1, 7⟩] ∧
      ((⟨[(0, [0, 0, 0, 0, 0])], fun _ => [(1, some 7)]⟩ :
        MapHazardPtrsStorage).ReclaimUnprotected 0).state.RetireStorage 0 = [(1, some 7)] ∧
      ([(1, some 7)] : List Record).filter (fun r => isProtected [(0, [0, 0, 0, 0, 0])] r.1) =
        [] := by
  decide

theorem reclaimLoop_map_eq_filter (hp : List (ThreadId × List HPCell)) (self : ThreadId)
    (recs : List Record) : ∀ i : Nat, (reclaimLoop hp self i recs).2 = none →
      (reclaimLoop hp self i recs).1.map (fun c => ((c.addr, some c.fn) : Record)) =
        recs.filter fun r => !isProtected hp r.1 := by
  induction recs with
  | nil => intro i _; simp [reclaimLoop]
  | cons r rest ih =>
    intro i h
    obtain ⟨cand, del⟩ := r
    unfold reclaimLoop at h ⊢
    by_cases hprot : isProtected hp cand = true
    · rw [if_pos hprot] at h ⊢
      rw [ih _ h]
      simp [hprot]
    · rw [if_neg hprot] at h ⊢
      cases del with
      | none => simp at h
      | some f =>
        simp only at h
        simp only [List.map_cons]
        rw [ih _ h]
        simp [hprot]

/-- C6 as amended.  After a scan pass that does not throw, the deleters invoked
are, in list order and once each, those of exactly the records of the scanning
thread whose address equalled no cell; the scan removes nothing, the state
(retire lists and cells) is the one before the scan. -/
theorem ReclaimUnprotected_invokes_and_keeps (s : MapHazardPtrsStorage) (self : ThreadId)
    (h : (s.ReclaimUnprotected self).raised = none) :
    (s.ReclaimUnprotected self).calls.map (fun c => ((c.addr, some c.fn) : Record)) =
        (s.RetireStorage self).filter (fun r => !isProtected s.HPStorage r.1) ∧
      (s.ReclaimUnprotected self).calls.Nodup ∧
      (∀ c ∈ (s.ReclaimUnprotected self).calls,
        (s.RetireStorage self)[c.idx]? = some (c.addr, some c.fn)) ∧
      (s.ReclaimUnprotected self).state = s := by
  refine ⟨reclaimLoop_map_eq_filter _ _ _ 0 h, reclaimLoop_nodup _ _ _ 0, ?_, rfl⟩
  intro c hc
  have := (reclaimLoop_calls s.HPStorage self (s.RetireStorage self) 0 c hc).2.2.1
  simpa using this

theorem ReclaimUnprotected_invokes_and_keeps_witness :
    ((⟨[(0, [0, 0, 4, 0, 0])], fun _ => [(1, some 7), (4, none), (2, some 8)]⟩ :
        MapHazardPtrsStorage).ReclaimUnprotected 0).raised = none ∧
      ((⟨[(0, [0, 0, 4, 0, 0])], fun _ => [(1, some 7), (4, none), (2, some 8)]⟩ :
        MapHazardPtrsStorage).ReclaimUnprotected 0).calls.map
          (fun c => ((c.addr, some c.fn) : Record)) = [(1, some 7), (2, some 8)] ∧
      ((⟨[(0, [0, 0, 4, 0, 0])], fun _ => [(1, some 7), (4, none), (2, some 8)]⟩ :
        MapHazardPtrsStorage).ReclaimUnprotected 0).state.RetireStorage 0 =
          [(1, some 7), (4, none), (2, some 8)] :=
  ⟨by decide,
    (ReclaimUnprotected_invokes_and_keeps
      ⟨[(0, [0, 0, 4, 0, 0])], fun _ => [(1, some 7), (4, none), (2, some 8)]⟩ 0
      (by decide)).1.trans (by decide),
    by decide⟩

/-! ## Loads and stores through cell pointers -/

theorem read_write_same (s : MapHazardPtrsStorage) (c : CellRef) (v : HPCell)
    (hv : s.validRef c = true) : (s.write c v).read c = v := by
  unfold MapHazardPtrsStorage.validRef at hv
  unfold MapHazardPtrsStorage.read MapHazardPtrsStorage.write
  simp only
  rw [cellsOf_storeCell]
  cases h : cellsOf s.HPStorage c.tid with
  | none => simp [h] at hv
  | some cells =>
    simp only [h, decide_eq_true_eq] at hv
    simp only [Option.map_some', if_true]
    rw [getD_set, if_pos ⟨rfl, hv⟩]

theorem read_write_other (s : MapHazardPtrsStorage) (c c' : CellRef) (v : HPCell)
    (hne : c' ≠ c) : (s.write c v).read c' = s.read c' := by
  unfold MapHazardPtrsStorage.read MapHazardPtrsStorage.write
  simp only
  rw [cellsOf_storeCell]
  cases h : cellsOf s.HPStorage c'.tid with
  | none => rfl
  | some cells =>
    simp only [Option.map_some']
    by_cases ht : c'.tid = c.tid
    · rw [if_pos ht, getD_set]
      have hidx : ¬ (c.idx = c'.idx ∧ c.idx < cells.length) := by
        intro hh
        apply hne
        cases c
        cases c'
        simp only [CellRef.mk.injEq] at ht hh ⊢
        exact ⟨ht, hh.1.symm⟩
      rw [if_neg hidx]
    · rw [if_neg ht]

theorem validRef_write (s : MapHazardPtrsStorage) (c c' : CellRef) (v : HPCell) :
    (s.write c v).validRef c' = s.validRef c' := by
  unfold MapHazardPtrsStorage.validRef MapHazardPtrsStorage.write
  simp only
  rw [cellsOf_storeCell]
  cases h : cellsOf s.HPStorage c'.tid with
  | none => rfl
  | some cells =>
    simp only [Option.map_some']
    split <;> simp

theorem read_congr (s s' : MapHazardPtrsStorage) (h : s'.HPStorage = s.HPStorage) (c : CellRef) :
    s'.read c = s.read c := by
  unfold MapHazardPtrsStorage.read
  rw [h]

theorem storeCell_idem (addr : CellRef) (v : HPCell) (hp : List (ThreadId × List HPCell)) :
    storeCell (storeCell hp addr v) addr v = storeCell hp addr v := by
  unfold storeCell
  rw [List.map_map]
  apply List.map_congr_left
  intro ts _
  simp only [Function.comp]
  by_cases h : ts.1 = addr.tid
  · simp [h]
  · simp [h]

theorem Retire_state_write_nullptr (s : MapHazardPtrsStorage) (self : ThreadId) (addr : CellRef)
    (reclaim : Callback) :
    (s.Retire self addr reclaim).state.write addr nullptr = (s.Retire self addr reclaim).state := by
  rw [Retire_unfold]
  split
  · split
    · simp only [MapHazardPtrsStorage.write, storeCell_idem]
    · simp only [MapHazardPtrsStorage.write, MapHazardPtrsStorage.push_back, storeCell_idem]
  · simp only [MapHazardPtrsStorage.write, MapHazardPtrsStorage.push_back, storeCell_idem]

/-! ## `Retire()` on a handle -/

/-- C7, where it fails.  Thread 0 calls `Create` twice, which binds both live
handles to slot 0, and protects address `5` with the second handle.
`Retire()` on the first handle then clears the cell of the second handle too:
its `Empty()` turns from false to true, and the address it was protecting is
appended with the deleter of the first handle. -/
theorem Retire_clears_cell_of_sharing_handle :
    (Run.exec Run.init [Op.create 0 (some 7), Op.create 0 (some 8), Op.protect 1 5]).handles =
        [(⟨some ⟨0, 0⟩, some 7⟩, true), (⟨some ⟨0, 0⟩, some 8⟩, true)] ∧
      HazardPtr.Empty ⟨some ⟨0, 0⟩, some 8⟩
        (Run.exec Run.init
          [Op.create 0 (some 7), Op.create 0 (some 8), Op.protect 1 5]).state = some false ∧
      HazardPtr.Empty ⟨some ⟨0, 0⟩, some 8⟩
        (Run.exec Run.init
          [Op.create 0 (some 7), Op.create 0 (some 8), Op.protect 1 5,
           Op.retire 0 0]).state = some true ∧
      (Run.exec Run.init
          [Op.create 0 (some 7), Op.create 0 (some 8), Op.protect 1 5,
           Op.retire 0 0]).state.RetireStorage 0 = [(5, some 7)] ∧
      (Run.exec Run.init
          [Op.create 0 (some 7), Op.create 0 (some 8), Op.protect 1 5,
           Op.retire 0 0]).raised = [] := by
  decide

/-- C7 as amended.  Let the cell `c` of a handle hold `a` and let `d` be the
deleter bound to the handle.  `Retire()` on thread `self` leaves the cell null,
so `Empty()` is true, and every cell other than `c` and every other thread's
retire list as it was; and when the call returns, which it does whenever it
does not scan, the retire list of `self` is the former one with the record
`(a, d)` appended as its last element.  A handle bound to the same cell `c` is
not covered by "every cell other than `c`". -/
theorem HazardPtr.Retire_clears_and_appends (h : HazardPtr) (c : CellRef) (self : ThreadId)
    (s : MapHazardPtrsStorage) (hc : h.ThreadLocalCellAddr = some c)
    (hv : s.validRef c = true) :
    ∃ e, h.Retire self s = some e ∧
      e.state.read c = nullptr ∧ h.Empty e.state = some true ∧
      (∀ c', c' ≠ c → e.state.read c' = s.read c') ∧
      (∀ t, t ≠ self → e.state.RetireStorage t = s.RetireStorage t) ∧
      (e.raised = none →
        e.state.RetireStorage self = s.RetireStorage self ++ [(s.read c, h.Deleter)] ∧
        (e.state.RetireStorage self).getLast? = some (s.read c, h.Deleter)) ∧
      ((s.RetireStorage self).length ≠ Size * MAX_THREADS_AMNT + 1 → e.raised = none) := by
  refine ⟨s.Retire self c h.Deleter, by simp [HazardPtr.Retire, hc, HazardPtrManager.Reclaim],
    ?_, ?_, ?_, ?_, ?_, ?_⟩
  · rw [read_congr _ _ (Retire_HPStorage s self c h.Deleter)]
    exact read_write_same s c nullptr hv
  · simp only [HazardPtr.Empty, hc]
    rw [read_congr _ _ (Retire_HPStorage s self c h.Deleter), read_write_same s c nullptr hv]
    simp
  · intro c' hne
    rw [read_congr _ _ (Retire_HPStorage s self c h.Deleter)]
    exact read_write_other s c c' nullptr hne
  · intro t ht
    cases hr : (s.Retire self c h.Deleter).raised with
    | none => rw [Retire_RetireStorage_of_ok _ _ _ _ hr, if_neg ht]
    | some e => rw [Retire_RetireStorage_of_raised _ _ _ _ _ hr]
  · intro hr
    have := Retire_RetireStorage_of_ok _ _ _ _ hr self
    rw [if_pos rfl] at this
    rw [this]
    exact ⟨rfl, by simp⟩
  · intro hlen
    rw [Retire_unfold, if_neg hlen]

theorem HazardPtr.Retire_clears_and_appends_witness :
    ∃ e, (⟨some ⟨0, 1⟩, some 7⟩ : HazardPtr).Retire 0
          ⟨[(0, [3, 4, 0, 0, 0])], fun _ => [(9, none)]⟩ = some e ∧
      e.state.read ⟨0, 1⟩ = nullptr ∧
      (⟨some ⟨0, 1⟩, some 7⟩ : HazardPtr).Empty e.state = some true ∧
      (∀ c', c' ≠ ⟨0, 1⟩ → e.state.read c' =
        (⟨[(0, [3, 4, 0, 0, 0])], fun _ => [(9, none)]⟩ : MapHazardPtrsStorage).read c') ∧
      (∀ t, t ≠ 0 → e.state.RetireStorage t =
        (⟨[(0, [3, 4, 0, 0, 0])], fun _ => [(9, none)]⟩ : MapHazardPtrsStorage).RetireStorage t) ∧
      (e.raised = none →
        e.state.RetireStorage 0 =
          (⟨[(0, [3, 4, 0, 0, 0])], fun _ => [(9, none)]⟩ : MapHazardPtrsStorage).RetireStorage 0 ++
            [((⟨[(0, [3, 4, 0, 0, 0])], fun _ => [(9, none)]⟩ : MapHazardPtrsStorage).read ⟨0, 1⟩,
              (⟨some ⟨0, 1⟩, some 7⟩ : HazardPtr).Deleter)] ∧
        (e.state.RetireStorage 0).getLast? =
          some ((⟨[(0, [3, 4, 0, 0, 0])], fun _ => [(9, none)]⟩ : MapHazardPtrsStorage).read ⟨0, 1⟩,
            (⟨some ⟨0, 1⟩, some 7⟩ : HazardPtr).Deleter)) ∧
      (((⟨[(0, [3, 4, 0, 0, 0])], fun _ => [(9, none)]⟩ :
          MapHazardPtrsStorage).RetireStorage 0).length ≠ Size * MAX_THREADS_AMNT + 1 →
        e.raised = none) :=
  HazardPtr.Retire_clears_and_appends ⟨some ⟨0, 1⟩, some 7⟩ ⟨0, 1⟩ 0
    ⟨[(0, [3, 4, 0, 0, 0])], fun _ => [(9, none)]⟩ rfl (by decide)

/-! ## `Protect` -/

/-- The loop of `Protect`, started after `n` loads: when iteration number `k`
(counted from 0) is the first whose two loads agree and the bound allows more
than `k` iterations, the loop ends there and returns the agreed value, having
done two loads for each iteration; the cell then holds that value and nothing
else has changed. -/
theorem protectLoop_first_agreement (c : CellRef) (loads : Nat → HPCell) :
    ∀ (k fuel n : Nat) (s : MapHazardPtrsStorage),
      (∀ j, j < k → loads (n + 2 * j) ≠ loads (n + 2 * j + 1)) →
      loads (n + 2 * k) = loads (n + 2 * k + 1) → k < fuel →
        ∃ s', protectLoop c loads fuel n s = some (loads (n + 2 * k), n + 2 * k + 2, s') ∧
          s'.RetireStorage = s.RetireStorage ∧
          (s.validRef c = true → s'.read c = loads (n + 2 * k)) ∧
          (∀ c', c' ≠ c → s'.read c' = s.read c') := by
  intro k
  induction k with
  | zero =>
    intro fuel n s _ hagree hfuel
    obtain ⟨fuel, rfl⟩ : ∃ m, fuel = m + 1 := ⟨fuel - 1, by omega⟩
    simp only [Nat.mul_zero, Nat.add_zero] at hagree ⊢
    refine ⟨s.write c (loads n), ?_, rfl, read_write_same s c _, fun c' hne =>
      read_write_other s c c' _ hne⟩
    unfold protectLoop
    simp only [ne_eq, hagree, not_true_eq_false, if_false]
  | succ k ih =>
    intro fuel n s hdis hagree hfuel
    obtain ⟨fuel, rfl⟩ : ∃ m, fuel = m + 1 := ⟨fuel - 1, by omega⟩
    have h0 : loads n ≠ loads (n + 1) := by
      have := hdis 0 (by omega)
      simpa using this
    have hdis' : ∀ j, j < k → loads (n + 2 + 2 * j) ≠ loads (n + 2 + 2 * j + 1) := by
      intro j hj
      have := hdis (j + 1) (by omega)
      have e1 : n + 2 * (j + 1) = n + 2 + 2 * j := by omega
      rw [e1] at this
      exact this
    have e2 : n + 2 * (k + 1) = n + 2 + 2 * k := by omega
    rw [e2] at hagree ⊢
    obtain ⟨s', h1, h2, h3, h4⟩ :=
      ih fuel (n + 2) (s.write c (loads n)) hdis' hagree (by omega)
    refine ⟨s', ?_, h2, ?_, ?_⟩
    · unfold protectLoop
      simp only [ne_eq, h0, not_false_eq_true, if_true]
      exact h1
    · intro hv
      exact h3 (by rw [validRef_write]; exact hv)
    · intro c' hne
      rw [h4 c' hne]
      exact read_write_other s c c' _ hne

/-- C8. With the atomic given as the sequence `loads` of the values its
successive loads return: when iteration number `k` (counted from 0) is the
first whose two loads agree, `Protect` stops there, after `2 * k + 2` loads,
whatever larger bound on the iterations is given; it returns the agreed value,
the cell of the handle holds exactly the returned value, and no other cell and
no retire list has changed.  When the atomic holds `v` throughout, `Protect`
returns `v` after one iteration, and `Empty()` is then false if and only if
`v` is not null. -/
theorem HazardPtr.Protect_first_agreement (h : HazardPtr) (c : CellRef)
    (s : MapHazardPtrsStorage) (loads : Nat → HPCell) (k fuel : Nat)
    (hc : h.ThreadLocalCellAddr = some c) (hv : s.validRef c = true)
    (hdis : ∀ j, j < k → loads (2 * j) ≠ loads (2 * j + 1))
    (hagree : loads (2 * k) = loads (2 * k + 1)) (hfuel : k < fuel) :
    (∃ s', h.Protect loads fuel s = some (loads (2 * k), 2 * k + 2, s') ∧
        s'.read c = loads (2 * k) ∧ (∀ c', c' ≠ c → s'.read c' = s.read c') ∧
        s'.RetireStorage = s.RetireStorage) ∧
      ∀ v : HPCell, ∃ s', h.Protect (fun _ => v) fuel s = some (v, 2, s') ∧ s'.read c = v ∧
        (h.Empty s' = some false ↔ v ≠ nullptr) := by
  constructor
  · obtain ⟨s', h1, h2, h3, h4⟩ := protectLoop_first_agreement c loads k fuel 0 s
      (by simpa using hdis) (by simpa using hagree) hfuel
    refine ⟨s', ?_, ?_, h4, h2⟩
    · simp only [HazardPtr.Protect, hc]
      simpa using h1
    · simpa using h3 hv
  · intro v
    obtain ⟨fuel, rfl⟩ : ∃ m, fuel = m + 1 := ⟨fuel - 1, by omega⟩
    refine ⟨s.write c v, Protect_unmodified h c hc v fuel s, read_write_same s c v hv, ?_⟩
    simp only [HazardPtr.Empty, hc, read_write_same s c v hv]
    simp

theorem HazardPtr.Protect_first_agreement_witness :
    (∃ s', (⟨some ⟨0, 1⟩, none⟩ : HazardPtr).Protect (fun n => if n < 3 then n + 5 else 9) 4
          ⟨[(0, [0, 0, 0, 0, 0])], fun _ => []⟩ =
            some ((fun n => if n < 3 then n + 5 else 9) (2 * 2), 2 * 2 + 2, s') ∧
        s'.read ⟨0, 1⟩ = (fun n => if n < 3 then n + 5 else 9) (2 * 2) ∧
        (∀ c', c' ≠ ⟨0, 1⟩ → s'.read c' =
          (⟨[(0, [0, 0, 0, 0, 0])], fun _ => []⟩ : MapHazardPtrsStorage).read c') ∧
        s'.RetireStorage =
          (⟨[(0, [0, 0, 0, 0, 0])], fun _ => []⟩ : MapHazardPtrsStorage).RetireStorage) ∧
      ∀ v : HPCell, ∃ s', (⟨some ⟨0, 1⟩, none⟩ : HazardPtr).Protect (fun _ => v) 4
          ⟨[(0, [0, 0, 0, 0, 0])], fun _ => []⟩ = some (v, 2, s') ∧ s'.read ⟨0, 1⟩ = v ∧
        ((⟨some ⟨0, 1⟩, none⟩ : HazardPtr).Empty s' = some false ↔ v ≠ nullptr) :=
  HazardPtr.Protect_first_agreement ⟨some ⟨0, 1⟩, none⟩ ⟨0, 1⟩
    ⟨[(0, [0, 0, 0, 0, 0])], fun _ => []⟩ (fun n => if n < 3 then n + 5 else 9) 2 4 rfl
    (by decide) (by decide) (by decide) (by decide)

/-! ## The destructor of a handle -/

/-- C9. The destructor of a handle with cell `c` invokes no callback and throws
nothing; it leaves the cell null, every other cell as it was and every retire
list as it was.  Run directly after `Retire()` on the same handle, by whatever
thread, it leaves the whole state as `Retire()` left it. -/
theorem HazardPtr.destroy_clears_own_cell_only (h : HazardPtr) (c : CellRef)
    (s : MapHazardPtrsStorage) (hc : h.ThreadLocalCellAddr = some c)
    (hv : s.validRef c = true) :
    (∃ e, h.destroy s = some e ∧ e.calls = [] ∧ e.raised = none ∧
        e.state.read c = nullptr ∧ (∀ c', c' ≠ c → e.state.read c' = s.read c') ∧
        e.state.RetireStorage = s.RetireStorage) ∧
      ∀ self : ThreadId, ∃ e1 e2, h.Retire self s = some e1 ∧ h.destroy e1.state = some e2 ∧
        e2.state = e1.state ∧ e2.calls = [] ∧ e2.raised = none := by
  constructor
  · refine ⟨⟨s.write c nullptr, [], none⟩, by simp [HazardPtr.destroy, hc], rfl, rfl,
      read_write_same s c nullptr hv, fun c' hne => read_write_other s c c' nullptr hne, rfl⟩
  · intro self
    refine ⟨s.Retire self c h.Deleter, ⟨(s.Retire self c h.Deleter).state.write c nullptr, [], none⟩,
      by simp [HazardPtr.Retire, hc, HazardPtrManager.Reclaim], by simp [HazardPtr.destroy, hc],
      Retire_state_write_nullptr s self c h.Deleter, rfl, rfl⟩

theorem HazardPtr.destroy_clears_own_cell_only_witness :
    (∃ e, (⟨some ⟨0, 1⟩, some 7⟩ : HazardPtr).destroy
          ⟨[(0, [3, 4, 0, 0, 0])], fun _ => [(9, none)]⟩ = some e ∧
        e.calls = [] ∧ e.raised = none ∧ e.state.read ⟨0, 1⟩ = nullptr ∧
        (∀ c', c' ≠ ⟨0, 1⟩ → e.state.read c' =
          (⟨[(0, [3, 4, 0, 0, 0])], fun _ => [(9, none)]⟩ : MapHazardPtrsStorage).read c') ∧
        e.state.RetireStorage =
          (⟨[(0, [3, 4, 0, 0, 0])], fun _ => [(9, none)]⟩ : MapHazardPtrsStorage).RetireStorage) ∧
      ∀ self : ThreadId, ∃ e1 e2,
        (⟨some ⟨0, 1⟩, some 7⟩ : HazardPtr).Retire self
          ⟨[(0, [3, 4, 0, 0, 0])], fun _ => [(9, none)]⟩ = some e1 ∧
        (⟨some ⟨0, 1⟩, some 7⟩ : HazardPtr).destroy e1.state = some e2 ∧
        e2.state = e1.state ∧ e2.calls = [] ∧ e2.raised = none :=
  HazardPtr.destroy_clears_own_cell_only ⟨some ⟨0, 1⟩, some 7⟩ ⟨0, 1⟩
    ⟨[(0, [3, 4, 0, 0, 0])], fun _ => [(9, none)]⟩ rfl (by decide)

/-! ## Exceptions -/

/-- C10, the failing run.  Thread 0 makes a handle with `MakeHazardPtr()`, that
is without a deleter, protects address `1` with it and calls `Retire()` seven
times.  The seventh call scans, finds the record `(1, empty function)`
unprotected, invokes the empty function object and leaves with
`std::bad_function_call`; the record it was to append is not appended. -/
theorem Retire_without_deleter_throws :
    (Run.exec Run.init
        ([Op.create 0 none, Op.protect 0 1] ++ List.replicate 7 (Op.retire 0 0))).raised =
      [Exn.bad_function_call] ∧
    (Run.exec Run.init
        ([Op.create 0 none, Op.protect 0 1] ++ List.replicate 6 (Op.retire 0 0))).raised = [] ∧
    (MakeHazardPtr MapHazardPtrsStorage.init 0).2 = Except.ok ⟨some ⟨0, 0⟩, none⟩ ∧
    ((Run.exec Run.init
        ([Op.create 0 none, Op.protect 0 1] ++
          List.replicate 7 (Op.retire 0 0))).state.RetireStorage 0).length = 6 :=
  ⟨by decide, by decide, rfl, by decide⟩

/-! ## The move constructor -/

/-- C11, the failing input.  A handle bound to cell `c` with the deleter `7` is
moved from.  The new handle is bound to the same cell, but its deleter is the
empty function object, and `Retire()` on it appends the record `(3, empty)`
where `Retire()` on the original handle appends `(3, 7)`. -/
theorem move_drops_deleter :
    (HazardPtr.move ⟨some ⟨0, 0⟩, some 7⟩).1 = ⟨some ⟨0, 0⟩, none⟩ ∧
      (((HazardPtr.move ⟨some ⟨0, 0⟩, some 7⟩).1.Retire 0
          ⟨[(0, [3, 0, 0, 0, 0])], fun _ => []⟩).map fun e => e.state.RetireStorage 0) =
        some [(3, none)] ∧
      (((⟨some ⟨0, 0⟩, some 7⟩ : HazardPtr).Retire 0
          ⟨[(0, [3, 0, 0, 0, 0])], fun _ => []⟩).map fun e => e.state.RetireStorage 0) =
        some [(3, some 7)] := by
  decide

/-- The move constructor keeps the cell pointer and loses the deleter, whatever
the handle: the new handle has the empty function object as deleter. -/
theorem HazardPtr.move_fst (hp : HazardPtr) :
    hp.move.1.ThreadLocalCellAddr = hp.ThreadLocalCellAddr ∧ hp.move.1.Deleter = none :=
  ⟨rfl, rfl⟩

/-- C17, the failing input.  Whatever the handle and the state, the cell pointer
of a moved-from handle is null, and its destructor, which stores through that
pointer without a test, goes through the null pointer: the model has no state
to give for it. -/
theorem moved_from_destroy_null_dereference (hp : HazardPtr) (s : MapHazardPtrsStorage) :
    hp.move.2.ThreadLocalCellAddr = none ∧ hp.move.2.destroy s = none :=
  ⟨rfl, rfl⟩

/-! ## The threshold -/

/-- C12, where it fails.  Thread 0, the only registered thread, makes a handle
and calls `Retire()` on it seven times without protecting anything.  At the
seventh call the list holds six records, so the call scans; all six records
hold the null address, which the null cells protect, and no deleter is
invoked. -/
theorem scan_reclaims_nothing_single_thread :
    (Run.exec Run.init
        ([Op.create 0 (some 7)] ++ List.replicate 6 (Op.retire 0 0))).state.HPStorage.length ≤
      MAX_THREADS_AMNT ∧
    ((Run.exec Run.init
        ([Op.create 0 (some 7)] ++ List.replicate 6 (Op.retire 0 0))).state.RetireStorage
          0).length = Size * MAX_THREADS_AMNT + 1 ∧
    ((Run.exec Run.init
        ([Op.create 0 (some 7)] ++ List.replicate 6 (Op.retire 0 0))).state.Retire 0 ⟨0, 0⟩
          (some 7)).calls = [] ∧
    ((Run.exec Run.init
        ([Op.create 0 (some 7)] ++ List.replicate 6 (Op.retire 0 0))).state.Retire 0 ⟨0, 0⟩
          (some 7)).raised = none ∧
    (Run.exec Run.init
        ([Op.create 0 (some 7)] ++ List.replicate 6 (Op.retire 0 0))).state.RetireStorage 0 =
      List.replicate 6 (nullptr, some 7) := by
  decide

/-- More records with pairwise different addresses than there are cells: one
of the records is unprotected. -/
theorem exists_unprotected_of_distinct (hp : List (ThreadId × List HPCell))
    (hwf : ∀ ts ∈ hp, ts.2.length = Size) (hthreads : hp.length ≤ MAX_THREADS_AMNT)
    (recs : List Record) (hlen : recs.length = Size * MAX_THREADS_AMNT + 1)
    (hnd : (recs.map Prod.fst).Nodup) :
    ∃ r ∈ recs, isProtected hp r.1 = false := by
  by_contra hcon
  have hall : ∀ r ∈ recs, isProtected hp r.1 = true := by
    intro r hr
    by_contra hne
    exact hcon ⟨r, hr, by simpa using hne⟩
  match hp, hwf, hthreads, hall with
  | [], _, _, hall =>
    cases recs with
    | nil => simp [Size, MAX_THREADS_AMNT] at hlen
    | cons r rest =>
      have := hall r (List.mem_cons_self _ _)
      simp [isProtected] at this
  | [ts], hwf, _, hall =>
    have hsub : recs.map Prod.fst ⊆ ts.2 := by
      intro a ha
      rw [List.mem_map] at ha
      obtain ⟨r, hr, rfl⟩ := ha
      obtain ⟨ts', hts', hmem⟩ := (isProtected_eq_true_iff _ _).1 (hall r hr)
      rw [List.mem_singleton] at hts'
      rw [← hts']
      exact hmem
    have h1 := (List.Nodup.subperm hnd hsub).length_le
    have h2 := hwf ts (List.mem_singleton_self _)
    rw [List.length_map, hlen, h2] at h1
    simp [Size, MAX_THREADS_AMNT] at h1
  | _ :: _ :: _, _, hthreads, _ =>
    simp [MAX_THREADS_AMNT] at hthreads

theorem storeCell_length (hp : List (ThreadId × List HPCell)) (addr : CellRef) (v : HPCell) :
    (storeCell hp addr v).length = hp.length := by
  simp [storeCell]

/-- C12 as amended.  Let at most `MAX_THREADS_AMNT` threads be registered, each
with `Size` cells, and let Retire be called when the retire list of the caller
holds `Size * MAX_THREADS_AMNT + 1` records, so that the call scans.  If the
addresses of these records are pairwise different, one of the records equals no
cell, and the scan, if it does not throw, invokes at least one deleter. -/
theorem Retire_scan_reclaims_of_distinct (s : MapHazardPtrsStorage) (self : ThreadId)
    (addr : CellRef) (reclaim : Callback) (hwf : s.WF)
    (hthreads : s.HPStorage.length ≤ MAX_THREADS_AMNT)
    (hlen : (s.RetireStorage self).length = Size * MAX_THREADS_AMNT + 1)
    (hnd : ((s.RetireStorage self).map Prod.fst).Nodup) :
    (∃ r ∈ s.RetireStorage self, isProtected (s.write addr nullptr).HPStorage r.1 = false) ∧
      ((s.Retire self addr reclaim).raised = none →
        (s.Retire self addr reclaim).calls ≠ []) := by
  have hex := exists_unprotected_of_distinct (s.write addr nullptr).HPStorage
    (WF_write s addr nullptr hwf)
    (by simp only [MapHazardPtrsStorage.write, storeCell_length]; exact hthreads)
    (s.RetireStorage self) hlen hnd
  refine ⟨hex, ?_⟩
  intro hr hempty
  rw [Retire_calls_eq, if_pos hlen] at hempty
  rw [Retire_unfold, if_pos hlen] at hr
  have hloop : (reclaimLoop (s.write addr nullptr).HPStorage self 0
      (s.RetireStorage self)).2 = none := by
    cases h2 : (reclaimLoop (s.write addr nullptr).HPStorage self 0 (s.RetireStorage self)).2 with
    | none => rfl
    | some e => simp [h2] at hr
  have hmap := reclaimLoop_map_eq_filter _ self _ 0 hloop
  rw [hempty] at hmap
  obtain ⟨r, hr1, hr2⟩ := hex
  have : r ∈ (s.RetireStorage self).filter
      (fun r => !isProtected (s.write addr nullptr).HPStorage r.1) := by
    rw [List.mem_filter]
    exact ⟨hr1, by simp [hr2]⟩
  rw [← hmap] at this
  simp at this

theorem Retire_scan_reclaims_of_distinct_witness :
    (∃ r ∈ (⟨[(0, [1, 2, 3, 4, 5])], fun _ => [(1, some 7), (2, some 7), (3, some 7),
          (4, some 7), (5, some 7), (6, some 7)]⟩ : MapHazardPtrsStorage).RetireStorage 0,
        isProtected ((⟨[(0, [1, 2, 3, 4, 5])], fun _ => [(1, some 7), (2, some 7), (3, some 7),
          (4, some 7), (5, some 7), (6, some 7)]⟩ : MapHazardPtrsStorage).write ⟨0, 0⟩
            nullptr).HPStorage r.1 = false) ∧
      (((⟨[(0, [1, 2, 3, 4, 5])], fun _ => [(1, some 7), (2, some 7), (3, some 7),
          (4, some 7), (5, some 7), (6, some 7)]⟩ : MapHazardPtrsStorage).Retire 0 ⟨0, 0⟩
            (some 7)).raised = none →
        ((⟨[(0, [1, 2, 3, 4, 5])], fun _ => [(1, some 7), (2, some 7), (3, some 7),
          (4, some 7), (5, some 7), (6, some 7)]⟩ : MapHazardPtrsStorage).Retire 0 ⟨0, 0⟩
            (some 7)).calls ≠ []) :=
  Retire_scan_reclaims_of_distinct
    ⟨[(0, [1, 2, 3, 4, 5])], fun _ => [(1, some 7), (2, some 7), (3, some 7),
      (4, some 7), (5, some 7), (6, some 7)]⟩ 0 ⟨0, 0⟩ (some 7)
    (by intro ts hts; simp only [List.mem_singleton] at hts; subst hts; rfl)
    (by decide) (by decide) (by decide)

/-! ## Which cell `Create` binds -/

theorem findFree_some (cells : List HPCell) : ∀ (i k : Nat), findFree i cells = some k →
    i ≤ k ∧ cells[k - i]? = some nullptr ∧ ∀ j, j < k - i → cells[j]? ≠ some nullptr := by
  induction cells with
  | nil => intro i k h; simp [findFree] at h
  | cons c rest ih =>
    intro i k h
    unfold findFree at h
    by_cases hc : c = nullptr
    · rw [if_pos hc] at h
      simp only [Option.some.injEq] at h
      subst h
      subst hc
      simp
    · rw [if_neg hc] at h
      obtain ⟨h1, h2, h3⟩ := ih (i + 1) k h
      have e : k - i = (k - (i + 1)) + 1 := by omega
      refine ⟨by omega, ?_, ?_⟩
      · rw [e, List.getElem?_cons_succ]
        exact h2
      · intro j hj
        cases j with
        | zero =>
          simp only [List.getElem?_cons_zero, ne_eq, Option.some.injEq]
          exact hc
        | succ j =>
          rw [List.getElem?_cons_succ]
          exact h3 j (by omega)

theorem Create_fst (s : MapHazardPtrsStorage) (id : ThreadId) (deleter : Callback) :
    (s.Create id deleter).1 = ⟨touch s.HPStorage id, s.RetireStorage⟩ := by
  unfold MapHazardPtrsStorage.Create
  simp only
  split <;> rfl

theorem cellsOf_touch_of_some (hp : List (ThreadId × List HPCell)) (id t : ThreadId)
    (cells : List HPCell) (h : cellsOf hp t = some cells) :
    cellsOf (touch hp id) t = some cells := by
  unfold touch
  split
  · exact h
  · rw [cellsOf_append_singleton, h]

theorem read_touch (hp : List (ThreadId × List HPCell)) (rs : ThreadId → List Record)
    (id : ThreadId) (c : CellRef) :
    (⟨touch hp id, rs⟩ : MapHazardPtrsStorage).read c = (⟨hp, rs⟩ : MapHazardPtrsStorage).read c := by
  unfold MapHazardPtrsStorage.read
  simp only
  cases h : cellsOf hp c.tid with
  | some cells => rw [cellsOf_touch_of_some hp id c.tid cells h]
  | none =>
    cases h2 : cellsOf (touch hp id) c.tid with
    | none => rfl
    | some cells =>
      rcases cellsOf_touch hp id c.tid cells h2 with h3 | ⟨_, h3⟩
      · rw [h] at h3
        simp at h3
      · subst h3
        simp only
        rw [List.getD_eq_getElem?_getD]
        by_cases hlt : c.idx < Size
        · rw [List.getElem?_eq_getElem (by simpa using hlt)]
          simp
        · rw [List.getElem?_eq_none (by simpa using hlt)]
          rfl

theorem read_threadCells (s : MapHazardPtrsStorage) (id : ThreadId) (i : Nat) :
    s.read ⟨id, i⟩ = (s.threadCells id).getD i nullptr := by
  have h1 := read_touch s.HPStorage s.RetireStorage id ⟨id, i⟩
  have h2 : (⟨s.HPStorage, s.RetireStorage⟩ : MapHazardPtrsStorage) = s := rfl
  rw [h2] at h1
  rw [← h1]
  unfold MapHazardPtrsStorage.read MapHazardPtrsStorage.threadCells
  simp only
  rw [cellsOf_touch_self]
  rfl

/-- C14, where it fails.  Thread 0 calls `Create` twice and protects nothing:
the two live handles are bound to the same cell, slot 0. -/
theorem two_live_handles_share_cell :
    (Run.exec Run.init [Op.create 0 none, Op.create 0 (some 7)]).handles =
      [(⟨some ⟨0, 0⟩, none⟩, true), (⟨some ⟨0, 0⟩, some 7⟩, true)] := by
  decide

/-- C14 as amended.  In a storage where every registered thread has `Size`
cells, a successful `Create` by thread `id` binds the new handle to a cell of
that thread, one of its `Size` slots and a cell of the storage afterwards,
which holds the null pointer at that time, before and after the call; so the
cell differs from the cell of every handle that holds a non-null address
then. -/
theorem Create_binds_null_cell (s : MapHazardPtrsStorage) (hwf : s.WF) (id : ThreadId)
    (deleter : Callback) (h : HazardPtr) (hok : (s.Create id deleter).2 = Except.ok h) :
    ∃ c : CellRef, h.ThreadLocalCellAddr = some c ∧ c.tid = id ∧ c.idx < Size ∧
      (s.Create id deleter).1.validRef c = true ∧
      (s.threadCells id)[c.idx]? = some nullptr ∧
      s.read c = nullptr ∧ (s.Create id deleter).1.read c = nullptr ∧
      ∀ (h1 : HazardPtr) (c1 : CellRef), h1.ThreadLocalCellAddr = some c1 →
        s.read c1 ≠ nullptr → c1 ≠ c := by
  rw [Create_result] at hok
  cases hf : findFree 0 (s.threadCells id) with
  | none => simp [hf] at hok
  | some freePtr =>
    simp only [hf, Except.ok.injEq] at hok
    subst hok
    obtain ⟨_, h2, _⟩ := findFree_some _ 0 freePtr hf
    simp only [Nat.sub_zero] at h2
    have hlen := threadCells_length s hwf id
    have hidx : freePtr < (s.threadCells id).length := by
      by_contra hcon
      rw [List.getElem?_eq_none (by omega)] at h2
      simp at h2
    have hread : s.read ⟨id, freePtr⟩ = nullptr := by
      rw [read_threadCells, List.getD_eq_getElem?_getD, h2]
      rfl
    refine ⟨⟨id, freePtr⟩, rfl, rfl, by rw [← hlen]; exact hidx, ?_, h2, hread, ?_, ?_⟩
    · unfold MapHazardPtrsStorage.validRef
      rw [Create_HPStorage, cellsOf_touch_self]
      simp only [decide_eq_true_eq]
      rw [← threadCells_eq]
      exact hidx
    · rw [Create_fst, read_touch]
      exact hread
    · intro h1 c1 _ hne heq
      rw [heq] at hne
      exact hne hread

theorem Create_binds_null_cell_witness :
    ∃ c : CellRef, (⟨some ⟨1, 1⟩, some 7⟩ : HazardPtr).ThreadLocalCellAddr = some c ∧
      c.tid = 1 ∧ c.idx < Size ∧
      ((⟨[(1, [4, 0, 0, 0, 0])], fun _ => []⟩ : MapHazardPtrsStorage).Create 1
        (some 7)).1.validRef c = true ∧
      ((⟨[(1, [4, 0, 0, 0, 0])], fun _ => []⟩ : MapHazardPtrsStorage).threadCells 1)[c.idx]? =
        some nullptr ∧
      (⟨[(1, [4, 0, 0, 0, 0])], fun _ => []⟩ : MapHazardPtrsStorage).read c = nullptr ∧
      ((⟨[(1, [4, 0, 0, 0, 0])], fun _ => []⟩ : MapHazardPtrsStorage).Create 1 (some 7)).1.read
        c = nullptr ∧
      ∀ (h1 : HazardPtr) (c1 : CellRef), h1.ThreadLocalCellAddr = some c1 →
        (⟨[(1, [4, 0, 0, 0, 0])], fun _ => []⟩ : MapHazardPtrsStorage).read c1 ≠ nullptr →
          c1 ≠ c :=
  Create_binds_null_cell ⟨[(1, [4, 0, 0, 0, 0])], fun _ => []⟩
    (by intro ts hts; simp only [List.mem_singleton] at hts; subst hts; rfl) 1 (some 7)
    ⟨some ⟨1, 1⟩, some 7⟩ rfl

/-! ## When `Retire` scans, and what it scans -/

/-- C15, where it fails.  Thread 0 has called `Retire()` eight times, the last
time on address `1`; its list holds eight records, more than the threshold,
and the record `(1, 7)` is unprotected.  The next `Retire` call invokes
nothing, where a scan pass on the same cells would invoke the deleter of that
record: the call runs no scan. -/
theorem no_scan_above_threshold :
    Size * MAX_THREADS_AMNT + 1 ≤ ((Run.exec Run.init
        ([Op.create 0 (some 7)] ++ List.replicate 7 (Op.retire 0 0) ++
          [Op.protect 0 1, Op.retire 0 0])).state.RetireStorage 0).length ∧
    ((Run.exec Run.init
        ([Op.create 0 (some 7)] ++ List.replicate 7 (Op.retire 0 0) ++
          [Op.protect 0 1, Op.retire 0 0])).state.Retire 0 ⟨0, 0⟩ (some 7)).calls = [] ∧
    (((Run.exec Run.init
        ([Op.create 0 (some 7)] ++ List.replicate 7 (Op.retire 0 0) ++
          [Op.protect 0 1, Op.retire 0 0])).state.write ⟨0, 0⟩ nullptr).ReclaimUnprotected
            0).calls = [⟨0, 7, 1, 7⟩] := by
  decide

/-- C15 as amended.  A `Retire` call made when the retire list of the calling
thread holds exactly `Size * MAX_THREADS_AMNT + 1` records runs one scan pass,
on the cells as they are after the retiring cell was cleared, before it
appends: its invocations and its exception are those of the scan.  A call made
at any other length runs no scan: it invokes nothing, throws nothing, and only
clears the cell and appends the record. -/
theorem Retire_scans_exactly_at_threshold (s : MapHazardPtrsStorage) (self : ThreadId)
    (addr : CellRef) (reclaim : Callback) :
    ((s.RetireStorage self).length = Size * MAX_THREADS_AMNT + 1 →
        (s.Retire self addr reclaim).calls =
            ((s.write addr nullptr).ReclaimUnprotected self).calls ∧
          (s.Retire self addr reclaim).raised =
            ((s.write addr nullptr).ReclaimUnprotected self).raised) ∧
      ((s.RetireStorage self).length ≠ Size * MAX_THREADS_AMNT + 1 →
        (s.Retire self addr reclaim).calls = [] ∧ (s.Retire self addr reclaim).raised = none ∧
          (s.Retire self addr reclaim).state =
            (s.write addr nullptr).push_back self (s.read addr, reclaim)) := by
  constructor
  · intro hlen
    rw [Retire_unfold, if_pos hlen]
    unfold MapHazardPtrsStorage.ReclaimUnprotected
    simp only [MapHazardPtrsStorage.write]
    split
    · rename_i e he
      exact ⟨rfl, he.symm⟩
    · rename_i he
      exact ⟨rfl, he.symm⟩
  · intro hlen
    rw [Retire_unfold, if_neg hlen]
    exact ⟨rfl, rfl, rfl⟩

theorem Retire_scans_exactly_at_threshold_witness :
    ((⟨[(0, [0, 0, 0, 0, 0])], fun _ => List.replicate 6 (1, some 7)⟩ :
          MapHazardPtrsStorage).Retire 0 ⟨0, 0⟩ none).calls.length = 6 ∧
      ((⟨[(0, [0, 0, 0, 0, 0])], fun _ => List.replicate 5 (1, some 7)⟩ :
          MapHazardPtrsStorage).Retire 0 ⟨0, 0⟩ none).calls = [] :=
  ⟨((Retire_scans_exactly_at_threshold
        ⟨[(0, [0, 0, 0, 0, 0])], fun _ => List.replicate 6 (1, some 7)⟩ 0 ⟨0, 0⟩ none).1
      (by decide)).1 ▸ (by decide),
    ((Retire_scans_exactly_at_threshold
        ⟨[(0, [0, 0, 0, 0, 0])], fun _ => List.replicate 5 (1, some 7)⟩ 0 ⟨0, 0⟩ none).2
      (by decide)).1⟩

/-- C16, where it fails.  Thread 1 retires address `5` with the deleter `8`;
thread 0 then calls `Retire()` seven times without protecting anything.  The
seventh call of thread 0 scans while the record `(5, 8)` of thread 1 is in the
retire list of thread 1 and no cell holds `5`, and it invokes nothing. -/
theorem scan_skips_other_threads_records :
    ((Run.exec Run.init
        ([Op.create 1 (some 8), Op.protect 0 5, Op.retire 1 0, Op.create 0 (some 7)] ++
          List.replicate 6 (Op.retire 0 1))).state.RetireStorage 0).length =
      Size * MAX_THREADS_AMNT + 1 ∧
    (Run.exec Run.init
        ([Op.create 1 (some 8), Op.protect 0 5, Op.retire 1 0, Op.create 0 (some 7)] ++
          List.replicate 6 (Op.retire 0 1))).state.RetireStorage 1 = [(5, some 8)] ∧
    isProtected (Run.exec Run.init
        ([Op.create 1 (some 8), Op.protect 0 5, Op.retire 1 0, Op.create 0 (some 7)] ++
          List.replicate 6 (Op.retire 0 1))).state.HPStorage 5 = false ∧
    (Run.exec Run.init
        ([Op.create 1 (some 8), Op.protect 0 5, Op.retire 1 0, Op.create 0 (some 7)] ++
          List.replicate 7 (Op.retire 0 1))).calls = [] ∧
    (Run.exec Run.init
        ([Op.create 1 (some 8), Op.protect 0 5, Op.retire 1 0, Op.create 0 (some 7)] ++
          List.replicate 7 (Op.retire 0 1))).raised = [] := by
  decide

/-- C16 as amended.  A scan pass triggered by a `Retire` call of thread `self`
considers the records of the retire list of `self` only: every invocation is
made for `self`, on the record of that list at the position it names, and when
the scan does not throw the invocations are, in order and once each, those of
exactly the records of that list whose address equals no cell of any thread. -/
theorem Retire_scans_own_list_only (s : MapHazardPtrsStorage) (self : ThreadId)
    (addr : CellRef) (reclaim : Callback)
    (hlen : (s.RetireStorage self).length = Size * MAX_THREADS_AMNT + 1) :
    (∀ c ∈ (s.Retire self addr reclaim).calls,
        c.tid = self ∧ (s.RetireStorage self)[c.idx]? = some (c.addr, some c.fn)) ∧
      ((s.Retire self addr reclaim).raised = none →
        (s.Retire self addr reclaim).calls.map (fun c => ((c.addr, some c.fn) : Record)) =
          (s.RetireStorage self).filter
            fun r => !isProtected (s.write addr nullptr).HPStorage r.1) := by
  constructor
  · intro c hc
    rw [Retire_calls_eq, if_pos hlen] at hc
    obtain ⟨h1, _, h3, _⟩ := reclaimLoop_calls _ _ _ _ _ hc
    exact ⟨h1, by simpa using h3⟩
  · intro hr
    rw [Retire_calls_eq, if_pos hlen]
    rw [Retire_unfold, if_pos hlen] at hr
    apply reclaimLoop_map_eq_filter
    cases h2 : (reclaimLoop (s.write addr nullptr).HPStorage self 0 (s.RetireStorage self)).2 with
    | none => rfl
    | some e => simp [h2] at hr

theorem Retire_scans_own_list_only_witness :
    ((⟨[(0, [0, 0, 0, 0, 0]), (1, [3, 0, 0, 0, 0])],
        fun t => if t = 0 then [(1, some 7), (3, none), (0, none), (0, none), (2, some 9),
          (0, none)] else [(5, some 8)]⟩ : MapHazardPtrsStorage).RetireStorage 0).length =
        Size * MAX_THREADS_AMNT + 1 ∧
      ((⟨[(0, [0, 0, 0, 0, 0]), (1, [3, 0, 0, 0, 0])],
        fun t => if t = 0 then [(1, some 7), (3, none), (0, none), (0, none), (2, some 9),
          (0, none)] else [(5, some 8)]⟩ : MapHazardPtrsStorage).Retire 0 ⟨0, 0⟩
            (some 7)).calls.map (fun c => ((c.addr, some c.fn) : Record)) =
        [(1, some 7), (2, some 9)] :=
  ⟨by decide,
    ((Retire_scans_own_list_only
      ⟨[(0, [0, 0, 0, 0, 0]), (1, [3, 0, 0, 0, 0])],
        fun t => if t = 0 then [(1, some 7), (3, none), (0, none), (0, none), (2, some 9),
          (0, none)] else [(5, some 8)]⟩ 0 ⟨0, 0⟩ (some 7) (by decide)).2 (by decide)).trans
      (by decide)⟩

/-! ## What `Create` does -/

/-- C18. In a storage where every registered thread has `Size` cells, thread
`id` has `Size` cells once `HPStorage[id]` is evaluated, all null for a thread
not seen before.  `Create(id, d)` throws `std::runtime_error` if and only if
all of them hold non-null values; otherwise it returns the handle bound to the
lowest slot that holds the null pointer, with the deleter `d`, and that handle
is `Empty()`.  In both cases every cell reads as before, the cells of the
registered threads and every retire list are unchanged. -/
theorem Create_lowest_free_cell (s : MapHazardPtrsStorage) (hwf : s.WF) (id : ThreadId)
    (d : Callback) :
    (s.threadCells id).length = Size ∧
      (cellsOf s.HPStorage id = none → s.threadCells id = List.replicate Size nullptr ∧
        cellsOf (s.Create id d).1.HPStorage id = some (List.replicate Size nullptr)) ∧
      ((s.Create id d).2 = Except.error Exn.runtime_error ↔
        ∀ c ∈ s.threadCells id, c ≠ nullptr) ∧
      ((¬ ∀ c ∈ s.threadCells id, c ≠ nullptr) →
        ∃ i, i < Size ∧ (s.Create id d).2 = Except.ok ⟨some ⟨id, i⟩, d⟩ ∧
          (s.threadCells id)[i]? = some nullptr ∧
          (∀ j, j < i → (s.threadCells id)[j]? ≠ some nullptr) ∧
          HazardPtr.Empty ⟨some ⟨id, i⟩, d⟩ (s.Create id d).1 = some true) ∧
      (∀ c, (s.Create id d).1.read c = s.read c) ∧
      (∀ t cells, cellsOf s.HPStorage t = some cells →
        cellsOf (s.Create id d).1.HPStorage t = some cells) ∧
      (s.Create id d).1.RetireStorage = s.RetireStorage := by
  have hlen := threadCells_length s hwf id
  refine ⟨hlen, ?_, ?_, ?_, ?_, ?_, Create_RetireStorage s id d⟩
  · intro hnone
    constructor
    · rw [threadCells_eq, hnone]
      rfl
    · rw [Create_HPStorage, cellsOf_touch_self, hnone]
      rfl
  · rw [Create_result]
    constructor
    · intro h
      cases hf : findFree 0 (s.threadCells id) with
      | none => exact (findFree_eq_none_iff _ 0).1 hf
      | some k => simp [hf] at h
    · intro h
      rw [(findFree_eq_none_iff _ 0).2 h]
  · intro hfree
    cases hf : findFree 0 (s.threadCells id) with
    | none => exact absurd ((findFree_eq_none_iff _ 0).1 hf) hfree
    | some i =>
      obtain ⟨_, h2, h3⟩ := findFree_some _ 0 i hf
      simp only [Nat.sub_zero] at h2 h3
      have hi : i < Size := by
        rw [← hlen]
        by_contra hcon
        rw [List.getElem?_eq_none (by omega)] at h2
        simp at h2
      refine ⟨i, hi, by rw [Create_result, hf], h2, h3, ?_⟩
      simp only [HazardPtr.Empty]
      rw [Create_fst, read_touch]
      have h4 : (⟨s.HPStorage, s.RetireStorage⟩ : MapHazardPtrsStorage) = s := rfl
      rw [h4, read_threadCells, List.getD_eq_getElem?_getD, h2]
      rfl
  · intro c
    rw [Create_fst, read_touch]
  · intro t cells h
    rw [Create_HPStorage]
    exact cellsOf_touch_of_some _ _ _ _ h

theorem Create_lowest_free_cell_witness :
    ((⟨[(1, [4, 6, 0, 0, 9])], fun _ => []⟩ : MapHazardPtrsStorage).Create 1 (some 7)).2 =
        Except.ok ⟨some ⟨1, 2⟩, some 7⟩ ∧
      (⟨[(1, [4, 6, 0, 0, 9])], fun _ => []⟩ : MapHazardPtrsStorage).WF ∧
      ((⟨[(1, [4, 6, 0, 0, 9])], fun _ => []⟩ : MapHazardPtrsStorage).threadCells 1).length =
        Size :=
  ⟨rfl, by intro ts hts; simp only [List.mem_singleton] at hts; subst hts; rfl,
    (Create_lowest_free_cell ⟨[(1, [4, 6, 0, 0, 9])], fun _ => []⟩
      (by intro ts hts; simp only [List.mem_singleton] at hts; subst hts; rfl) 1 (some 7)).1⟩

/-! ## Null records -/

/-- C19. Let `Retire` be called through a pointer to a cell of the storage.
No invocation made by the scan of that call passes the null pointer to a
deleter: the cell just cleared is null and is among the cells the scan
compares, so every record holding the null address counts as protected. -/
theorem Retire_never_reclaims_nullptr (s : MapHazardPtrsStorage) (self : ThreadId)
    (addr : CellRef) (reclaim : Callback) (hv : s.validRef addr = true) :
    isProtected (s.write addr nullptr).HPStorage nullptr = true ∧
      ∀ c ∈ (s.Retire self addr reclaim).calls, c.addr ≠ nullptr := by
  have hprot : isProtected (s.write addr nullptr).HPStorage nullptr = true := by
    rw [isProtected_eq_true_iff]
    unfold MapHazardPtrsStorage.validRef at hv
    cases h : cellsOf s.HPStorage addr.tid with
    | none => simp [h] at hv
    | some cells =>
      simp only [h, decide_eq_true_eq] at hv
      have h2 : cellsOf (s.write addr nullptr).HPStorage addr.tid =
          some (cells.set addr.idx nullptr) := by
        simp only [MapHazardPtrsStorage.write]
        rw [cellsOf_storeCell, h]
        simp
      exact ⟨_, cellsOf_mem _ _ _ h2, List.mem_set _ _ hv _⟩
  refine ⟨hprot, ?_⟩
  intro c hc heq
  rw [Retire_calls_eq] at hc
  split at hc
  · have := (reclaimLoop_calls _ _ _ _ _ hc).2.2.2
    rw [heq, hprot] at this
    simp at this
  · simp at hc

theorem Retire_never_reclaims_nullptr_witness :
    isProtected ((⟨[(0, [3, 4, 6, 2, 1])], fun _ => [(0, some 7), (5, some 7), (0, some 7),
        (0, some 7), (0, some 7), (0, some 7)]⟩ : MapHazardPtrsStorage).write ⟨0, 1⟩
          nullptr).HPStorage nullptr = true ∧
      ∀ c ∈ ((⟨[(0, [3, 4, 6, 2, 1])], fun _ => [(0, some 7), (5, some 7), (0, some 7),
        (0, some 7), (0, some 7), (0, some 7)]⟩ : MapHazardPtrsStorage).Retire 0 ⟨0, 1⟩
          (some 7)).calls, c.addr ≠ nullptr :=
  Retire_never_reclaims_nullptr
    ⟨[(0, [3, 4, 6, 2, 1])], fun _ => [(0, some 7), (5, some 7), (0, some 7),
      (0, some 7), (0, some 7), (0, some 7)]⟩ 0 ⟨0, 1⟩ (some 7) (by decide)

end Concurrent
